import Mathlib

/-!
Verification development for the PolyASM assembler (src/polyasm.py).

Python strings are modelled as lists of characters (`Str`), Python `dict`s as
association lists updated in place, and Python exceptions as `Except PyErr`.
Each definition mirrors the corresponding function of the source file.
-/

/-- Python strings are modelled as lists of characters. -/
abbrev Str := List Char

deriving instance DecidableEq for Except

/-- Error sites of the assembler; `AsmError` messages are identified by site. -/
inductive ErrSite where
  | aliasRedefined
  | functionRedefined
  | macroRedefined
  | unknownOpcode
  | opcodeWidthMismatch
  | prefixNoDigitsB
  | prefixNoDigitsX
  | emptyLiteral
  | invalidLiteral
  | dataQuotedCount
  | dataNonBinary
  | dataTooLong
  | unknownFlag
  | flagTooWide
  | byteTooBig
  | sectionOverlap
deriving DecidableEq, Repr

/-- Python exceptions reaching the caller: the assembler's own `AsmError`
versus an uncaught builtin `ValueError` (e.g. from `int()`). -/
inductive PyErr where
  | asmError (site : ErrSite)
  | valueError (site : ErrSite)
deriving DecidableEq, Repr

/-- Tests whether an `Except` result is a raised `AsmError`. -/
def isAsmError {α : Type} : Except PyErr α → Bool
  | .error (.asmError _) => true
  | _ => false

/-- Tests whether an `Except` result is a raised `ValueError`. -/
def isValueError {α : Type} : Except PyErr α → Bool
  | .error (.valueError _) => true
  | _ => false

/-- Characters treated as whitespace by Python's `str.strip`/`str.split`. -/
def isPySpace (c : Char) : Bool :=
  c = ' ' || c = '\t' || c = '\n' || c = '\x0d' || c = '\x0b' || c = '\x0c'

/-- Python `str.strip()`: remove leading and trailing whitespace. -/
def pyStrip (s : Str) : Str :=
  ((s.dropWhile isPySpace).reverse.dropWhile isPySpace).reverse

/-- Worker for `pySplit`: `acc` holds the characters of the token currently
being scanned, in reverse order. -/
def pySplitAux : Str → Str → List Str
  | acc, [] => if acc = [] then [] else [acc.reverse]
  | acc, c :: rest =>
    if isPySpace c then
      if acc = [] then pySplitAux [] rest else acc.reverse :: pySplitAux [] rest
    else pySplitAux (c :: acc) rest

/-- Python `str.split()` with no argument: split on whitespace runs,
dropping empty pieces. -/
def pySplit (s : Str) : List Str := pySplitAux [] s

/-- Python `str.lower()` (ASCII case folding suffices here). -/
def pyLower (s : Str) : Str := s.map Char.toLower

/-- Python `str.startswith(p)`. -/
def startsWith (s p : Str) : Bool := decide (s.take p.length = p)

/-- Python `str.endswith(p)`. -/
def endsWith (s p : Str) : Bool := startsWith s.reverse p.reverse

/-- First-match lookup in an association list (models `dict.get(k, None)`). -/
def lookupA {α β : Type} [DecidableEq α] : List (α × β) → α → Option β
  | [], _ => none
  | (k', v') :: rest, k => if k = k' then some v' else lookupA rest k

/-- In-place update of an association list (models `d[k] = v`): replace the
existing binding, else append a new one. -/
def updateAssoc {α β : Type} [DecidableEq α] : List (α × β) → α → β → List (α × β)
  | [], k, v => [(k, v)]
  | (k', v') :: rest, k, v =>
    if k = k' then (k, v) :: rest else (k', v') :: updateAssoc rest k v

/-- Numeric value of a digit or letter character (Python `int()` digits). -/
def digitVal (c : Char) : Nat :=
  if '0' ≤ c ∧ c ≤ '9' then c.toNat - 48
  else if 'a' ≤ c ∧ c ≤ 'z' then c.toNat - 87
  else if 'A' ≤ c ∧ c ≤ 'Z' then c.toNat - 55
  else 999

/-- Whether `c` is a valid digit for base `b` in Python `int()`. -/
def isBaseDigit (b : Nat) (c : Char) : Bool := decide (digitVal c < b)

/-- Validity of a digit sequence with Python's single-underscore-separator
rule. `prevU` records whether the previous char was an underscore (used to
reject doubled, leading and trailing underscores); `seen` whether any digit
has been consumed. -/
def validDigits (b : Nat) : Str → Bool → Bool → Bool
  | [], prevU, seen => !prevU && seen
  | '_' :: rest, prevU, seen => if prevU then false else validDigits b rest true seen
  | c :: rest, _, _ => isBaseDigit b c && validDigits b rest false true

/-- Accumulated value of a digit sequence (underscores skipped). -/
def digitsValue (b : Nat) (s : Str) : Nat :=
  (s.filter (fun c => c ≠ '_')).foldl (fun a c => a * b + digitVal c) 0

/-- Python's builtin `int(s, base)` for bases 2, 10 and 16: optional
whitespace and sign, an optional matching `0b`/`0x` prefix (after which one
leading underscore is allowed), then digits of the base. Returns `none` on
the inputs where Python raises `ValueError`. -/
def pyInt (s : Str) (b : Nat) : Option Int :=
  let t := pyStrip s
  let (sign, t1) : Int × Str :=
    match t with
    | '+' :: r => (1, r)
    | '-' :: r => (-1, r)
    | _ => (1, t)
  let (t2, allowLead) : Str × Bool :=
    if b = 2 ∧ startsWith (pyLower t1) ['0', 'b'] then (t1.drop 2, true)
    else if b = 16 ∧ startsWith (pyLower t1) ['0', 'x'] then (t1.drop 2, true)
    else (t1, false)
  if validDigits b t2 (!allowLead) false then some (sign * (digitsValue b t2 : Int))
  else none

/-- Lift `pyInt` into `Except`: a parse failure is Python's `ValueError`. -/
def pyIntE (s : Str) (b : Nat) : Except PyErr Int :=
  match pyInt s b with
  | some v => .ok v
  | none => .error (.valueError .invalidLiteral)

/-- Model of `parse_any_int` (src/polyasm.py lines 513-531): strip whitespace,
drop `_` and `"`, dispatch on a `0b`/`0x` prefix, raising `AsmError` for a
bare prefix or an empty string and delegating to `int()` otherwise. -/
def parse_any_int (x : Str) : Except PyErr Int :=
  let x1 := (pyStrip x).filter (fun c => c ≠ '_' && c ≠ '"')
  if startsWith (pyLower x1) ['0', 'b'] then
    if x1.length = 2 then .error (.asmError .prefixNoDigitsB)
    else pyIntE (x1.drop 2) 2
  else if startsWith (pyLower x1) ['0', 'x'] then
    if x1.length = 2 then .error (.asmError .prefixNoDigitsX)
    else pyIntE x1 16
  else
    if x1 = [] then .error (.asmError .emptyLiteral)
    else pyIntE x1 10

/-- Python `str(n)` for a natural number (decimal digit string). -/
def pyStrNat (n : Nat) : Str := Nat.toDigits 10 n

/-- Binary digit string of a natural number, most significant first
(the digits of Python `bin(n)` after the `0b` prefix). -/
def binDigits (n : Nat) : Str := Nat.toDigits 2 n

/-- Python `bin(v)`: `0b`-prefixed binary, with a leading `-` sign when
`v` is negative. -/
def pyBin (v : Int) : Str :=
  if v < 0 then '-' :: '0' :: 'b' :: binDigits v.natAbs
  else '0' :: 'b' :: binDigits v.toNat

/-- Model of `int_to_lsb_array` (src/polyasm.py lines 611-621): bits of `v`
from least significant to most significant; non-positive values give the
empty list, exactly as the Python `while v > 0` loop does. -/
def int_to_lsb_go : Nat → Nat → List Nat
  | 0, _ => []
  | fuel + 1, v => if v = 0 then [] else v % 2 :: int_to_lsb_go fuel (v / 2)

/-- Conversion of a (possibly negative) integer to its LSB-first bit list. -/
def int_to_lsb_array (v : Int) : List Nat :=
  if v ≤ 0 then [] else int_to_lsb_go (v.toNat + 1) v.toNat

/-- Filling one field of width `w`: consume up to `w` bits from the front of
`arr`, zero-padding to exactly `w`, and return the filled field together
with the remaining bits (the Python loop pops from the array's front). -/
def fillField (w : Nat) (arr : List Nat) : List Nat × List Nat :=
  (arr.take w ++ List.replicate (w - arr.length) 0, arr.drop w)

/-- One 32-bit output word of the expansion loop, rendered MSB first as in
`"".join(str(b) for b in reversed(full32))`. -/
def wordOfBits (full32 : List Nat) : Str :=
  (full32.reverse.map pyStrNat).flatten

/-- The `while True` loop of `expand_instr` (src/polyasm.py lines 557-608),
made total with explicit fuel. Each round fills the opcode field and the
three parameter fields LSB-first, sets the continuation bit when parameter
bits remain, appends the even-parity bit and emits the reversed 32-bit word. -/
def expandLoop (wop w1 w2 w3 : Nat) :
    Nat → List Nat → List Nat → List Nat → List Nat → List Str
  | 0, _, _, _, _ => []
  | fuel + 1, op, a1, a2, a3 =>
    let fOp := (fillField wop op).1
    let opR := (fillField wop op).2
    let f1 := (fillField w1 a1).1
    let a1R := (fillField w1 a1).2
    let f2 := (fillField w2 a2).1
    let a2R := (fillField w2 a2).2
    let f3 := (fillField w3 a3).1
    let a3R := (fillField w3 a3).2
    let cbit : Nat := if a1R ≠ [] ∨ a2R ≠ [] ∨ a3R ≠ [] then 1 else 0
    let out31 := fOp ++ f1 ++ f2 ++ f3 ++ [cbit]
    let pbit := out31.sum % 2
    let word := wordOfBits (out31 ++ [pbit])
    if a1R = [] ∧ a2R = [] ∧ a3R = [] then [word]
    else word :: expandLoop wop w1 w2 w3 fuel opR a1R a2R a3R

/-- Model of `expand_instr` (src/polyasm.py lines 536-609): expand an opcode
bit-string and three parameters into one or more 32-bit words. The opcode
string is reversed into an LSB-first bit array; the fuel bound exceeds the
total number of parameter bits, so it never runs out while any parameter
field width is positive. -/
def expand_instr (opcode_bits : Str) (p1 p2 p3 : Int)
    (opcode_width param1_width param2_width param3_width : Nat) : List Str :=
  let op_arr := opcode_bits.reverse.map (fun c => c.toNat - 48)
  let arr1 := int_to_lsb_array p1
  let arr2 := int_to_lsb_array p2
  let arr3 := int_to_lsb_array p3
  expandLoop opcode_width param1_width param2_width param3_width
    (arr1.length + arr2.length + arr3.length + 1) op_arr arr1 arr2 arr3

/-- Opcode table from src/polyasm.py lines 37-42. -/
def opcode_map : List (Str × Str) :=
  [(("jump").toList, ("00010").toList),
   (("add").toList, ("00011").toList),
   (("setreg").toList, ("00001").toList)]

/-- Register table from src/polyasm.py lines 43-49. -/
def register_map : List (Str × Int) :=
  [(("Jump_Register").toList, 2),
   (("R1").toList, 5),
   (("REG_MOD").toList, 1),
   (("REG_CMR").toList, 2)]

/-- Flag table from src/polyasm.py lines 50-54. -/
def flag_map : List (Str × Str) :=
  [(("REG_SET1").toList, ("00100000").toList),
   (("REG_SET2").toList, ("00010000").toList)]

/-- Model of the `SymbolTable` class (src/polyasm.py lines 80-133). Python
dicts become association lists; a `None` value is `none`. -/
structure SymbolTable where
  alias_map : List (Str × Option Nat)
  reverse_alias_map : List (Option Nat × List Str)
  function_map : List (Str × Option Nat)
  macro_map : List (Str × Int)
deriving DecidableEq

/-- The freshly constructed, empty symbol table. -/
def SymbolTable.empty : SymbolTable := ⟨[], [], [], []⟩

/-- Model of `SymbolTable.get_alias_addr`: `alias_map.get(aname, None)`,
where a stored `None` and a missing key are indistinguishable. -/
def SymbolTable.get_alias_addr (st : SymbolTable) (aname : Str) : Option Nat :=
  (lookupA st.alias_map aname).join

/-- Model of `SymbolTable.get_function_addr`. -/
def SymbolTable.get_function_addr (st : SymbolTable) (fname : Str) : Option Nat :=
  (lookupA st.function_map fname).join

/-- Model of `SymbolTable.get_macro_value`. -/
def SymbolTable.get_macro_value (st : SymbolTable) (mname : Str) : Option Int :=
  lookupA st.macro_map mname

/-- Model of `SymbolTable.define_alias` (src/polyasm.py lines 90-107): a
rebinding to a different non-null address is fatal; rebinding to the same
address or to null is ignored; a fresh name is inserted into both the alias
map and the reverse map. -/
def SymbolTable.define_alias (st : SymbolTable) (aname : Str) (addr : Option Nat)
    (lineno : Nat) : Except PyErr SymbolTable :=
  let _ := lineno
  match (lookupA st.alias_map aname).join with
  | some old =>
    if (match addr with | some a => decide (a ≠ old) | none => false) then
      .error (.asmError .aliasRedefined)
    else .ok st
  | none =>
    .ok { st with
      alias_map := updateAssoc st.alias_map aname addr,
      reverse_alias_map :=
        updateAssoc st.reverse_alias_map addr
          ((lookupA st.reverse_alias_map addr).getD [] ++ [aname]) }

/-- Model of `SymbolTable.define_function` (src/polyasm.py lines 115-120):
fatal only when an existing non-null address differs from a new non-null
address; in every other case the map entry is overwritten. -/
def SymbolTable.define_function (st : SymbolTable) (fname : Str) (addr : Option Nat) :
    Except PyErr SymbolTable :=
  match (lookupA st.function_map fname).join with
  | some old =>
    if (match addr with | some a => decide (a ≠ old) | none => false) then
      .error (.asmError .functionRedefined)
    else .ok { st with function_map := updateAssoc st.function_map fname addr }
  | none => .ok { st with function_map := updateAssoc st.function_map fname addr }

/-- Model of `SymbolTable.define_macro` (src/polyasm.py lines 125-130). -/
def SymbolTable.macroDefine (st : SymbolTable) (mname : Str) (value : Int) :
    Except PyErr SymbolTable :=
  match lookupA st.macro_map mname with
  | some old =>
    if decide (old ≠ value) then .error (.asmError .macroRedefined)
    else .ok { st with macro_map := updateAssoc st.macro_map mname value }
  | none => .ok { st with macro_map := updateAssoc st.macro_map mname value }

/-- Model of `parse_one_param` (src/polyasm.py lines 470-511): resolve one
operand token to an integer, with `[...]` forms consulting the symbol table
and unresolved symbols yielding 0. -/
def parse_one_param (tok : Str) (symtbl : SymbolTable) : Except PyErr Int :=
  let t := pyStrip tok
  if t = ['[', ']'] then .ok 0
  else if startsWith t ['['] && endsWith t [']'] then
    let inside := pyStrip (List.dropLast (t.drop 1))
    if endsWith inside ['(', ')', ':'] then
      let fname := pyStrip (inside.take (inside.length - 3))
      match symtbl.get_function_addr fname with
      | none => .ok 0
      | some faddr => .ok (faddr : Int)
    else if startsWith inside ['#'] then
      match symtbl.get_macro_value (inside.drop 1) with
      | none => .ok 0
      | some mval => .ok mval
    else if startsWith inside ['@'] then
      match symtbl.get_alias_addr (inside.drop 1) with
      | none => .ok 0
      | some aaddr => .ok (aaddr : Int)
    else
      match lookupA register_map inside with
      | some r => .ok r
      | none =>
        match lookupA symtbl.macro_map inside with
        | some v => .ok v
        | none => parse_any_int inside
  else parse_any_int t

/-- Writing into position `i` of the accumulator triple `p = [0, 0, 0]`. -/
def setIdx : Int × Int × Int → Nat → Int → Int × Int × Int
  | (_, b, c), 0, v => (v, b, c)
  | (a, _, c), 1, v => (a, v, c)
  | (a, b, _), _, v => (a, b, v)

/-- The `for i in range(min(3, len(ptoks)))` loop of `parse_three_params`,
walking the first `min(3, len(ptoks))` tokens with their index `i`. -/
def p3go (symtbl : SymbolTable) : List Str → Nat → Int × Int × Int →
    Except PyErr (Int × Int × Int)
  | [], _, p => .ok p
  | t :: rest, i, p => do
    let v ← parse_one_param t symtbl
    p3go symtbl rest (i + 1) (setIdx p i v)

/-- Model of `parse_three_params` (src/polyasm.py lines 458-468): start from
`[0, 0, 0]` and overwrite the first `min(3, len(ptoks))` entries. -/
def parse_three_params (ptoks : List Str) (symtbl : SymbolTable) :
    Except PyErr (Int × Int × Int) :=
  p3go symtbl (ptoks.take 3) 0 (0, 0, 0)

/-- Model of `check_section_overlap` (src/polyasm.py lines 316-334), with
Python's unbounded signed integers modelled by `Int`. -/
def check_section_overlap (code_start code_size data_start data_size : Int) :
    Except PyErr Unit :=
  let code_min := code_start
  let code_max := code_start + code_size - 1
  let data_min := data_start
  let data_max := data_start + data_size - 1
  if code_max < data_min then .ok ()
  else if data_max < code_min then .ok ()
  else .error (.asmError .sectionOverlap)

/-- Two's-complement bitwise AND on unbounded integers (Python `a & b`),
computed bit by bit with floor division; the fuel always suffices because
the magnitudes at least halve each step. -/
def pyAndGo : Nat → Int → Int → Int
  | 0, _, _ => 0
  | fuel + 1, a, b =>
    if a = 0 ∨ b = 0 then 0
    else if a = -1 then b
    else if b = -1 then a
    else a.emod 2 * b.emod 2 + 2 * pyAndGo fuel (a.ediv 2) (b.ediv 2)

/-- Python `a & b` on ints. -/
def pyAnd (a b : Int) : Int := pyAndGo (a.natAbs + b.natAbs + 1) a b

/-- Two's-complement bitwise OR, bit by bit (Python `a | b`). -/
def pyOrGo : Nat → Int → Int → Int
  | 0, _, _ => 0
  | fuel + 1, a, b =>
    if a = 0 then b
    else if b = 0 then a
    else if a = -1 ∨ b = -1 then -1
    else
      (a.emod 2 + b.emod 2 - a.emod 2 * b.emod 2) + 2 * pyOrGo fuel (a.ediv 2) (b.ediv 2)

/-- Python `a | b` on ints. -/
def pyOr (a b : Int) : Int := pyOrGo (a.natAbs + b.natAbs + 1) a b

/-- Two's-complement bitwise XOR, bit by bit (Python `a ^ b`). -/
def pyXorGo : Nat → Int → Int → Int
  | 0, _, _ => 0
  | fuel + 1, a, b =>
    if a = 0 then b
    else if b = 0 then a
    else if a = -1 then -b - 1
    else if b = -1 then -a - 1
    else (a.emod 2 + b.emod 2).emod 2 + 2 * pyXorGo fuel (a.ediv 2) (b.ediv 2)

/-- Python `a ^ b` on ints. -/
def pyXor (a b : Int) : Int := pyXorGo (a.natAbs + b.natAbs + 1) a b

/-- Python `~a` on ints. -/
def pyNot (a : Int) : Int := -a - 1

/-- Python `"{:08b}".format(v)`: binary digits padded with `0` on the left
to a minimum total width of 8, a negative value carrying a leading `-`. -/
def format08b (v : Int) : Str :=
  if v < 0 then
    let d := binDigits v.natAbs
    '-' :: (List.replicate (7 - d.length) '0' ++ d)
  else
    let d := binDigits v.toNat
    List.replicate (8 - d.length) '0' ++ d

/-- Scanner equivalent of `re.findall(r'"([^"]+)"', s)`: the first state
component is `none` outside quotes, and `some acc` (reversed contents)
after an opening quote. An immediately repeated quote restarts the match,
exactly as the regex engine does. -/
def findQuoted : Option Str → Str → List Str
  | none, [] => []
  | none, '"' :: rest => findQuoted (some []) rest
  | none, _ :: rest => findQuoted none rest
  | some _, [] => []
  | some acc, '"' :: rest =>
    if acc = [] then findQuoted (some []) rest
    else acc.reverse :: findQuoted none rest
  | some acc, c :: rest => findQuoted (some (c :: acc)) rest

/-- Whether `c` is one of the flag-combination operators `| & ^ ~ + -`. -/
def isOpChar (c : Char) : Bool :=
  c = '|' || c = '&' || c = '^' || c = '~' || c = '+' || c = '-'

/-- Equivalent of `re.split(r'[|&^~+-]', part)`: split at every operator
character, keeping empty pieces. -/
def splitOps : Str → List Str
  | [] => [[]]
  | c :: rest =>
    if isOpChar c then [] :: splitOps rest
    else
      match splitOps rest with
      | f :: fs => (c :: f) :: fs
      | [] => [[c]]

/-- Resolution of one flag token of a combination (src/polyasm.py lines
676-686): a macro value is rendered with `bin()[2:]`, a flag-table entry has
its spaces removed; more than 8 bits is fatal, and the bits then pass
through `int(bits, 2)`. -/
def flagValue (symtbl : SymbolTable) (flg : Str) : Except PyErr Int :=
  let flg := pyStrip flg
  match lookupA symtbl.macro_map flg with
  | some mv =>
    let bits := (pyBin mv).drop 2
    if bits.length > 8 then .error (.asmError .flagTooWide)
    else pyIntE bits 2
  | none =>
    match lookupA flag_map flg with
    | some fbits =>
      let bits := fbits.filter (fun c => c ≠ ' ')
      if bits.length > 8 then .error (.asmError .flagTooWide)
      else pyIntE bits 2
    | none => .error (.asmError .unknownFlag)

/-- One step of the flag fold (src/polyasm.py lines 690-702): apply operator
`op` between the accumulator and the next value; `~` ignores the value and
instead complements the accumulator masked to 8 bits. -/
def flagApply (byte : Int) (op : Char) (v : Int) : Int :=
  if op = '|' then pyOr byte v
  else if op = '&' then pyAnd byte v
  else if op = '^' then pyXor byte v
  else if op = '~' then pyAnd (pyNot byte) 0xFF
  else if op = '+' then byte + v
  else byte - v

/-- The `for i, flag in enumerate(flags)` fold over the remaining flags,
pairing each with its preceding operator. -/
def flagFoldGo (symtbl : SymbolTable) : Int → List Char → List Str → Except PyErr Int
  | byte, _, [] => .ok byte
  | byte, ops, flg :: rest => do
    let v ← flagValue symtbl flg
    match ops with
    | [] => flagFoldGo symtbl byte [] rest
    | op :: opsRest => flagFoldGo symtbl (flagApply byte op v) opsRest rest

/-- Model of the flag-combination branch of `parse_8_bit_data`: the first
flag seeds the accumulator, later flags are combined via their operators. -/
def flagCombine (symtbl : SymbolTable) (part : Str) : Except PyErr Int :=
  let operators := part.filter isOpChar
  let flags := splitOps part
  match flags with
  | [] => .ok 0
  | f0 :: rest => do
    let v0 ← flagValue symtbl f0
    flagFoldGo symtbl v0 operators rest

/-- Model of `parse_8_bit_data` (src/polyasm.py lines 667-742): one quoted
substring becomes one 8-bit bit-string, via flag combination, a binary or
hex literal, or a macro/decimal value. -/
def parse_8_bit_data (part : Str) (lineno : Nat) (symtbl : SymbolTable) :
    Except PyErr Str :=
  let _ := lineno
  if part.any isOpChar then do
    let byte ← flagCombine symtbl part
    if byte ≥ 256 then .error (.asmError .byteTooBig)
    else .ok (format08b byte)
  else if startsWith part ['0', 'b'] then
    let bits := part.drop 2
    if bits.length > 8 then .error (.asmError .flagTooWide)
    else if ¬ bits.all (fun c => c = '0' || c = '1') then
      .error (.asmError .invalidLiteral)
    else do
      let byte ← pyIntE bits 2
      .ok (format08b byte)
  else if startsWith part ['0', 'x'] then
    match pyInt part 16 with
    | none => .error (.asmError .invalidLiteral)
    | some byte =>
      if byte ≥ 256 then .error (.asmError .byteTooBig)
      else .ok (format08b byte)
  else
    match lookupA symtbl.macro_map part with
    | some mv =>
      if mv ≥ 256 then .error (.asmError .byteTooBig)
      else .ok (format08b mv)
    | none =>
      match pyInt part 10 with
      | none => .error (.asmError .invalidLiteral)
      | some byte =>
        if byte ≥ 256 then .error (.asmError .byteTooBig)
        else .ok (format08b byte)

/-- Model of `parse_data_line` (src/polyasm.py lines 626-665): a line with
double quotes must contain exactly four quoted bytes, concatenated into one
32-bit word; otherwise the line is a raw bit-string, padded to 32 bits when
shorter and fatal when longer. -/
def parse_data_line (line_str : Str) (lineno : Nat) (symtbl : SymbolTable) :
    Except PyErr (List Str) :=
  let s := pyStrip line_str
  if s.contains '"' then
    let parts := findQuoted none s
    if parts.length ≠ 4 then .error (.asmError .dataQuotedCount)
    else do
      let bitstrings ← parts.mapM (fun part => parse_8_bit_data (pyStrip part) lineno symtbl)
      .ok [bitstrings.flatten]
  else
    let bits := (pySplit s).flatten
    if ¬ bits.all (fun c => c = '0' || c = '1') then .error (.asmError .dataNonBinary)
    else if bits.length = 32 then .ok [bits]
    else if bits.length < 32 then .ok [bits ++ List.replicate (32 - bits.length) '0']
    else .error (.asmError .dataTooLong)

/-- Block kinds (class `BlockType`, src/polyasm.py lines 64-67). -/
inductive BlockKind where
  | functionKind
  | memoryKind
  | macroKind
deriving DecidableEq, Repr

/-- IR line kinds (class `IRType`, src/polyasm.py lines 138-143). -/
inductive IRKind where
  | macroLine
  | memoryData
  | aliasLine
  | funcDefine
  | instruction
deriving DecidableEq, Repr

/-- Model of class `IRLine` (src/polyasm.py lines 145-158). For an alias
line, `lineno` carries the intra-block index of the annotated content line,
exactly as the block parser stores it. -/
structure IRLine where
  kind : IRKind
  content : Str
  mem : Option Str := none
  lineno : Nat
  expanded_bits : List Str := []
  addresses : List Nat := []
  func : Option Str := none
  opcode : Option Str := none
  param1 : Option Int := none
  param2 : Option Int := none
  param3 : Option Int := none
deriving DecidableEq, Repr

/-- Model of class `Block` (src/polyasm.py lines 69-76). -/
structure Block where
  kind : BlockKind
  name : Str
  lineno : Nat
  content : List IRLine := []
  start_addr : Option Nat := none
  size : Nat := 0
deriving DecidableEq, Repr

/-- Alias handling inside `resolve_symbols` (src/polyasm.py lines 398-409
and 436-447): compute `block.start_addr + stored index`; bind only when the
alias is currently unbound, reporting whether the pass was updated. -/
def processAlias (symtbl : SymbolTable) (startAddr : Nat) (ir : IRLine) :
    Except PyErr (SymbolTable × Bool) :=
  let alias_name := ir.content
  let line_index := ir.lineno
  let alias_addr := startAddr + line_index
  match symtbl.get_alias_addr alias_name with
  | none =>
    (symtbl.define_alias alias_name (some alias_addr) ir.lineno).map (fun t => (t, true))
  | some _ => .ok (symtbl, false)

/-- Instruction handling inside `resolve_symbols` (src/polyasm.py lines
370-390): look up the opcode, check its width, parse the three parameters
and expand; this part depends only on the line's text and the table. -/
def instrCore (wop w1 w2 w3 : Nat) (symtbl : SymbolTable) (content : Str) :
    Except PyErr (Str × (Int × Int × Int) × List Str) :=
  let opc := pyLower ((pySplit content).headD [])
  match lookupA opcode_map opc with
  | none => .error (.asmError .unknownOpcode)
  | some opcode_bits =>
    if opcode_bits.length ≠ wop then .error (.asmError .opcodeWidthMismatch)
    else
      (parse_three_params (pySplit content).tail symtbl).map (fun p =>
        (opc, p, expand_instr opcode_bits p.1 p.2.1 p.2.2 wop w1 w2 w3))

/-- Stamping of the `instrCore` result into the IR line, together with the
number of emitted words. -/
def processInstr (wop w1 w2 w3 : Nat) (bname : Str) (symtbl : SymbolTable)
    (cur : Nat) (ir : IRLine) : Except PyErr (IRLine × Nat) :=
  (instrCore wop w1 w2 w3 symtbl ir.content).map (fun r =>
    ({ ir with
        opcode := some r.1, param1 := some r.2.1.1, param2 := some r.2.1.2.1,
        param3 := some r.2.1.2.2, func := some bname,
        expanded_bits := r.2.2,
        addresses := List.range' cur r.2.2.length },
      r.2.2.length))

/-- Memory-data handling inside `resolve_symbols` (src/polyasm.py lines
427-435): encode the line and stamp the words and their addresses. -/
def processData (bname : Str) (symtbl : SymbolTable) (cur : Nat) (ir : IRLine) :
    Except PyErr (IRLine × Nat) :=
  (parse_data_line ir.content ir.lineno symtbl).map (fun data_bits =>
    ({ ir with
        mem := some bname, expanded_bits := data_bits,
        addresses := List.range' cur data_bits.length },
      data_bits.length))

/-- The per-line loop over a function block's content (src/polyasm.py lines
369-409), threading the symbol table, the code cursor, the accumulated
block size and the `updated` flag. -/
def runFuncLines (wop w1 w2 w3 : Nat) (bname : Str) (startAddr : Nat) :
    List IRLine → SymbolTable → Nat → Nat → Bool →
    Except PyErr (List IRLine × SymbolTable × Nat × Nat × Bool)
  | [], symtbl, cur, sz, upd => .ok ([], symtbl, cur, sz, upd)
  | ir :: rest, symtbl, cur, sz, upd =>
    match ir.kind with
    | .instruction =>
      match processInstr wop w1 w2 w3 bname symtbl cur ir with
      | .error e => .error e
      | .ok (ir', n) =>
        match runFuncLines wop w1 w2 w3 bname startAddr rest symtbl (cur + n) (sz + n) upd with
        | .error e => .error e
        | .ok (rest', symtbl', cur', sz', upd') =>
          .ok (ir' :: rest', symtbl', cur', sz', upd')
    | .aliasLine =>
      match processAlias symtbl startAddr ir with
      | .error e => .error e
      | .ok (symtbl1, bound) =>
        match runFuncLines wop w1 w2 w3 bname startAddr rest symtbl1 cur sz (upd || bound) with
        | .error e => .error e
        | .ok (rest', symtbl', cur', sz', upd') =>
          .ok (ir :: rest', symtbl', cur', sz', upd')
    | _ =>
      match runFuncLines wop w1 w2 w3 bname startAddr rest symtbl cur sz upd with
      | .error e => .error e
      | .ok (rest', symtbl', cur', sz', upd') =>
        .ok (ir :: rest', symtbl', cur', sz', upd')

/-- The per-line loop over a memory block's content (src/polyasm.py lines
426-447), threading the data cursor. -/
def runMemLines (bname : Str) (startAddr : Nat) :
    List IRLine → SymbolTable → Nat → Nat → Bool →
    Except PyErr (List IRLine × SymbolTable × Nat × Nat × Bool)
  | [], symtbl, cur, sz, upd => .ok ([], symtbl, cur, sz, upd)
  | ir :: rest, symtbl, cur, sz, upd =>
    match ir.kind with
    | .memoryData =>
      match processData bname symtbl cur ir with
      | .error e => .error e
      | .ok (ir', n) =>
        match runMemLines bname startAddr rest symtbl (cur + n) (sz + n) upd with
        | .error e => .error e
        | .ok (rest', symtbl', cur', sz', upd') =>
          .ok (ir' :: rest', symtbl', cur', sz', upd')
    | .aliasLine =>
      match processAlias symtbl startAddr ir with
      | .error e => .error e
      | .ok (symtbl1, bound) =>
        match runMemLines bname startAddr rest symtbl1 cur sz (upd || bound) with
        | .error e => .error e
        | .ok (rest', symtbl', cur', sz', upd') =>
          .ok (ir :: rest', symtbl', cur', sz', upd')
    | _ =>
      match runMemLines bname startAddr rest symtbl cur sz upd with
      | .error e => .error e
      | .ok (rest', symtbl', cur', sz', upd') =>
        .ok (ir :: rest', symtbl', cur', sz', upd')

/-- The block walk of `resolve_symbols` (src/polyasm.py lines 350-452):
function blocks take their table address or the code cursor, memory blocks
take the data cursor; each block's size is reset and recomputed, and a size
change marks the pass as updated. Blocks of other kinds are untouched. -/
def runBlocks (wop w1 w2 w3 : Nat) :
    List Block → SymbolTable → Nat → Nat → Bool →
    Except PyErr (List Block × SymbolTable × Nat × Nat × Bool)
  | [], symtbl, codeCur, dataCur, upd => .ok ([], symtbl, codeCur, dataCur, upd)
  | b :: rest, symtbl, codeCur, dataCur, upd =>
    match b.kind with
    | .functionKind =>
      match (match symtbl.get_function_addr b.name with
        | none => (symtbl.define_function b.name (some codeCur)).map (fun t => (t, codeCur))
        | some a => .ok (symtbl, a) : Except PyErr (SymbolTable × Nat)) with
      | .error e => .error e
      | .ok (symtbl1, startAddr) =>
        match runFuncLines wop w1 w2 w3 b.name startAddr b.content symtbl1 codeCur 0 upd with
        | .error e => .error e
        | .ok (ls', symtbl2, codeCur', sz, upd1) =>
          match runBlocks wop w1 w2 w3 rest symtbl2 codeCur' dataCur
            (upd1 || decide (sz ≠ b.size)) with
          | .error e => .error e
          | .ok (rest', symtbl3, codeCur'', dataCur', upd3) =>
            .ok ({ b with start_addr := some startAddr, size := sz, content := ls' } :: rest',
              symtbl3, codeCur'', dataCur', upd3)
    | .memoryKind =>
      match runMemLines b.name dataCur b.content symtbl dataCur 0 upd with
      | .error e => .error e
      | .ok (ls', symtbl2, dataCur', sz, upd1) =>
        match runBlocks wop w1 w2 w3 rest symtbl2 codeCur dataCur'
          (upd1 || decide (sz ≠ b.size)) with
        | .error e => .error e
        | .ok (rest', symtbl3, codeCur', dataCur'', upd3) =>
          .ok ({ b with start_addr := some dataCur, size := sz, content := ls' } :: rest',
            symtbl3, codeCur', dataCur'', upd3)
    | .macroKind =>
      match runBlocks wop w1 w2 w3 rest symtbl codeCur dataCur upd with
      | .error e => .error e
      | .ok (rest', symtbl', codeCur', dataCur', upd') =>
        .ok (b :: rest', symtbl', codeCur', dataCur', upd')

/-- Model of `resolve_symbols` (src/polyasm.py lines 340-453): one layout
pass over the block list, returning the rewritten blocks, the symbol table
and the `updated` flag. -/
def resolve_symbols (blocks : List Block) (symtbl : SymbolTable)
    (code_start data_start : Nat) (wop w1 w2 w3 : Nat) :
    Except PyErr (List Block × SymbolTable × Bool) :=
  (runBlocks wop w1 w2 w3 blocks symtbl code_start data_start false).map
    (fun r => (r.1, r.2.1, r.2.2.2.2))

/-- The per-block `(start_addr, size)` snapshot taken by `main` after each
pass (src/polyasm.py lines 1073-1081). -/
def snapshot (blocks : List Block) : List (Option Nat × Nat) :=
  blocks.map (fun b => (b.start_addr, b.size))

theorem lookupA_updateAssoc_self {α β : Type} [DecidableEq α]
    (m : List (α × β)) (k : α) (v : β) : lookupA (updateAssoc m k v) k = some v := by
  induction m with
  | nil => simp [updateAssoc, lookupA]
  | cons p rest ih =>
    by_cases h : k = p.1
    · simp [updateAssoc, lookupA, h]
    · simp [updateAssoc, lookupA, h, ih]

theorem lookupA_updateAssoc_ne {α β : Type} [DecidableEq α]
    (m : List (α × β)) (k k' : α) (v : β) (h : k' ≠ k) :
    lookupA (updateAssoc m k v) k' = lookupA m k' := by
  induction m with
  | nil => simp [updateAssoc, lookupA, h]
  | cons p rest ih =>
    by_cases hk : k = p.1
    · subst hk
      simp [updateAssoc, lookupA, h]
    · by_cases hk' : k' = p.1
      · simp [updateAssoc, lookupA, hk, hk']
      · simp [updateAssoc, lookupA, hk, hk', ih]

theorem dropWhile_of_forall_false {α : Type} (p : α → Bool) (l : List α)
    (h : ∀ c ∈ l, p c = false) : l.dropWhile p = l := by
  cases l with
  | nil => rfl
  | cons a rest => simp [List.dropWhile, h a (List.mem_cons_self a rest)]

theorem pyStrip_of_no_space (s : Str) (h : ∀ c ∈ s, isPySpace c = false) :
    pyStrip s = s := by
  unfold pyStrip
  rw [dropWhile_of_forall_false _ _ h,
    dropWhile_of_forall_false _ _ (by intro c hc; exact h c (List.mem_reverse.mp hc)),
    List.reverse_reverse]

theorem pySplitAux_of_no_space (s : Str) (h : ∀ c ∈ s, isPySpace c = false) :
    ∀ acc : Str, pySplitAux acc s =
      if acc.reverse ++ s = [] then [] else [acc.reverse ++ s] := by
  induction s with
  | nil =>
    intro acc
    simp only [pySplitAux, List.append_nil]
    by_cases ha : acc = []
    · subst ha; simp
    · rw [if_neg ha, if_neg (by simpa [List.reverse_eq_nil_iff] using ha)]
  | cons c rest ih =>
    intro acc
    have hc : isPySpace c = false := h c (List.mem_cons_self c rest)
    have ih' := ih (fun x hx => h x (List.mem_cons_of_mem c hx)) (c :: acc)
    simp only [pySplitAux, hc, Bool.false_eq_true, if_false]
    rw [ih']
    have he : (c :: acc).reverse ++ rest = acc.reverse ++ c :: rest := by simp
    rw [he]

/-- Claim C4: with the default field widths and the `setreg` opcode string,
`expand_instr` on `p1 = 0x4000`, `p2 = 0`, `p3 = 0` emits exactly two
32-bit words, the first with continuation bit 1 and the second with
continuation bit 0. -/
theorem c4_setreg_two_words :
    (expand_instr (("00001").toList) 0x4000 0 0 5 14 5 6).length = 2 ∧
    ((expand_instr (("00001").toList) 0x4000 0 0 5 14 5 6).headD [])[1]? = some '1' ∧
    ((expand_instr (("00001").toList) 0x4000 0 0 5 14 5 6).getD 1 [])[1]? = some '0' := by
  decide

/-- Claim C5, counterexample: with `code_size = 0` the code range
`[5, 5 + 0 - 1] = [5, 4]` is empty and so intersects nothing, yet
`check_section_overlap 5 0 3 10` raises. -/
theorem c5_counterexample :
    check_section_overlap 5 0 3 10 = .error (.asmError .sectionOverlap) ∧
    (5 : Int) + 0 - 1 < 5 := by
  decide

/-- Claim C5, amended: for sections of size at least 1,
`check_section_overlap` raises exactly when the two inclusive address
ranges share a point; a size-0 section degenerates to `[start, start-1]`
and can still raise. -/
theorem c5_overlap_iff (code_start code_size data_start data_size : Int)
    (_hc : 0 ≤ code_start) (_hd : 0 ≤ data_start)
    (hcs : 1 ≤ code_size) (hds : 1 ≤ data_size) :
    isAsmError (check_section_overlap code_start code_size data_start data_size) = true ↔
      ∃ x : Int, code_start ≤ x ∧ x ≤ code_start + code_size - 1 ∧
        data_start ≤ x ∧ x ≤ data_start + data_size - 1 := by
  unfold check_section_overlap
  dsimp only
  split_ifs with h1 h2
  · simp only [isAsmError, Bool.false_eq_true, false_iff]
    rintro ⟨x, hx1, hx2, hx3, hx4⟩
    omega
  · simp only [isAsmError, Bool.false_eq_true, false_iff]
    rintro ⟨x, hx1, hx2, hx3, hx4⟩
    omega
  · simp only [isAsmError, true_iff]
    by_cases hcd : code_start ≤ data_start
    · exact ⟨data_start, by omega, by omega, by omega, by omega⟩
    · exact ⟨code_start, by omega, by omega, by omega, by omega⟩

/-- Witness for C5's amended theorem at a concrete overlapping input. -/
theorem c5_overlap_iff_witness :
    isAsmError (check_section_overlap 0 81 80 1) = true ↔
      ∃ x : Int, (0 : Int) ≤ x ∧ x ≤ 0 + 81 - 1 ∧ (80 : Int) ≤ x ∧ x ≤ 80 + 1 - 1 :=
  c5_overlap_iff 0 81 80 1 (by decide) (by decide) (by decide) (by decide)

/-- Claim C9: a line of exactly 32 `0`/`1` characters taken by the unquoted
data form round-trips: `parse_data_line` returns that string unchanged as
its single emitted word. -/
theorem c9_roundtrip (s : Str) (lineno : Nat) (symtbl : SymbolTable)
    (hlen : s.length = 32) (hbits : ∀ c ∈ s, c = '0' ∨ c = '1') :
    parse_data_line s lineno symtbl = .ok [s] := by
  have hnosp : ∀ c ∈ s, isPySpace c = false := by
    intro c hc
    rcases hbits c hc with h | h <;> subst h <;> decide
  have hstrip : pyStrip s = s := pyStrip_of_no_space s hnosp
  have hne : s ≠ [] := by
    intro h
    rw [h] at hlen
    simp at hlen
  have hsplit : pySplit s = [s] := by
    unfold pySplit
    rw [pySplitAux_of_no_space s hnosp []]
    simp [hne]
  have hnoq : ¬ ('"' ∈ s) := by
    intro hq
    rcases hbits _ hq with h | h <;> exact absurd h (by decide)
  have hall : s.all (fun c => c = '0' || c = '1') = true := by
    simp only [List.all_eq_true]
    intro c hc
    rcases hbits c hc with h | h <;> simp [h]
  unfold parse_data_line
  dsimp only
  rw [hstrip]
  simp [hnoq, hsplit, hall, hlen]

/-- Witness for C9 at a concrete 32-bit line. -/
theorem c9_roundtrip_witness :
    parse_data_line (("10100000000000000000000000000101").toList) 3 SymbolTable.empty =
      .ok [("10100000000000000000000000000101").toList] :=
  c9_roundtrip (("10100000000000000000000000000101").toList) 3 SymbolTable.empty
    (by decide) (by decide)

/-- Claim C10: `parse_three_params` yields exactly three integers; operand
tokens beyond the third are ignored, and parameters without a token stay 0. -/
theorem c10_three_params (symtbl : SymbolTable) (t1 t2 t3 : Str) (rest : List Str) :
    parse_three_params (t1 :: t2 :: t3 :: rest) symtbl =
      parse_three_params [t1, t2, t3] symtbl ∧
    parse_three_params [] symtbl = .ok (0, 0, 0) ∧
    parse_three_params [t1] symtbl =
      (parse_one_param t1 symtbl).map (fun v => (v, 0, 0)) ∧
    parse_three_params [t1, t2] symtbl =
      (parse_one_param t1 symtbl).bind (fun v1 =>
        (parse_one_param t2 symtbl).map (fun v2 => (v1, v2, 0))) := by
  refine ⟨rfl, rfl, ?_, ?_⟩
  · cases h : parse_one_param t1 symtbl <;>
      simp [parse_three_params, p3go, h, setIdx, Except.map] <;> rfl
  · cases h1 : parse_one_param t1 symtbl <;>
      cases h2 : parse_one_param t2 symtbl <;>
        simp [parse_three_params, p3go, h1, h2, setIdx, Except.map, Except.bind] <;> rfl

/-- Claim C6, counterexample: on `"zz"` — a non-digit string for base 10 —
the claimed `InvalidLiteral`/`AsmError` is not raised; the error escaping
`parse_any_int` is the builtin `ValueError` from `int()`. -/
theorem c6_counterexample :
    parse_any_int (("zz").toList) = .error (.valueError .invalidLiteral) ∧
    isAsmError (parse_any_int (("zz").toList)) = false := by
  decide

/-- The `AsmError` results of `pyIntE` are impossible: `int()` failures are
`ValueError`s. -/
theorem isAsmError_pyIntE (s : Str) (b : Nat) : isAsmError (pyIntE s b) = false := by
  unfold pyIntE
  cases pyInt s b <;> rfl

/-- Claim C6, amended: `parse_any_int` raises `AsmError` exactly when, after
stripping whitespace, underscores and quotes, the input is a bare `0b`/`0x`
prefix or is empty; non-digit characters for the dispatched base instead
escape as a builtin `ValueError`. -/
theorem c6_asmerror_iff (x : Str) :
    isAsmError (parse_any_int x) = true ↔
      ((startsWith (pyLower ((pyStrip x).filter (fun c => c ≠ '_' && c ≠ '"'))) ['0', 'b'] = true ∧
        ((pyStrip x).filter (fun c => c ≠ '_' && c ≠ '"')).length = 2) ∨
       (startsWith (pyLower ((pyStrip x).filter (fun c => c ≠ '_' && c ≠ '"'))) ['0', 'x'] = true ∧
        ((pyStrip x).filter (fun c => c ≠ '_' && c ≠ '"')).length = 2) ∨
       (pyStrip x).filter (fun c => c ≠ '_' && c ≠ '"') = []) := by
  unfold parse_any_int
  dsimp only
  generalize (pyStrip x).filter (fun c => c ≠ '_' && c ≠ '"') = y
  have hbx : ∀ z : Str, startsWith (pyLower z) ['0', 'b'] = true →
      startsWith (pyLower z) ['0', 'x'] = true → False := by
    intro z hb hx
    have eb := of_decide_eq_true hb
    have ex := of_decide_eq_true hx
    simp only [List.length_cons, List.length_nil] at eb ex
    rw [eb] at ex
    exact absurd ex (by decide)
  split_ifs with h1 h2 h3 h4 h5
  · simp only [isAsmError, true_iff]
    exact Or.inl ⟨h1, h2⟩
  · rw [isAsmError_pyIntE]
    simp only [Bool.false_eq_true, false_iff]
    rintro (⟨_, hlen⟩ | ⟨hx, _⟩ | hnil)
    · exact h2 hlen
    · exact hbx y h1 hx
    · subst hnil; exact absurd h1 (by decide)
  · simp only [isAsmError, true_iff]
    exact Or.inr (Or.inl ⟨h3, h4⟩)
  · rw [isAsmError_pyIntE]
    simp only [Bool.false_eq_true, false_iff]
    rintro (⟨hb, _⟩ | ⟨_, hlen⟩ | hnil)
    · exact absurd hb h1
    · exact h4 hlen
    · subst hnil; exact absurd h3 (by decide)
  · simp only [isAsmError, true_iff]
    exact Or.inr (Or.inr h5)
  · rw [isAsmError_pyIntE]
    simp only [Bool.false_eq_true, false_iff]
    rintro (⟨hb, _⟩ | ⟨hx, _⟩ | hnil)
    · exact absurd hb h1
    · exact absurd hx h3
    · exact h5 hnil

theorem exceptBind_ok {α β : Type} (a : α) (f : α → Except PyErr β) :
    (Except.ok a >>= f) = f a := rfl

theorem exceptBind_error {α β : Type} (e : PyErr) (f : α → Except PyErr β) :
    ((Except.error e : Except PyErr α) >>= f) = Except.error e := rfl

/-- Claim C7: during a layout pass, an alias IR line in a block starting at
`startAddr` whose stored intra-block index is `k` binds its name to
`startAddr + k` when the name is unbound, and leaves an already-bound
alias (and the whole table) unchanged. -/
theorem c7_alias_binding (symtbl : SymbolTable) (startAddr k : Nat) (name : Str)
    (ir : IRLine) (hkind : ir.kind = .aliasLine) (hc : ir.content = name)
    (hl : ir.lineno = k) :
    (symtbl.get_alias_addr name = none →
      (processAlias symtbl startAddr ir).map
        (fun r => (r.1.get_alias_addr name, r.2)) = .ok (some (startAddr + k), true)) ∧
    (∀ a, symtbl.get_alias_addr name = some a →
      processAlias symtbl startAddr ir = .ok (symtbl, false)) := by
  have _ := hkind
  constructor
  · intro h
    unfold processAlias
    rw [hc, hl]
    dsimp only
    rw [h]
    unfold SymbolTable.get_alias_addr at h
    unfold SymbolTable.define_alias
    rw [h]
    simp [Except.map, SymbolTable.get_alias_addr, lookupA_updateAssoc_self]
  · intro a ha
    unfold processAlias
    rw [hc, hl]
    dsimp only
    rw [ha]

/-- Witness for C7: binding a fresh alias `A` at block start 10, index 2,
yields address 12. -/
theorem c7_alias_binding_witness :
    (processAlias SymbolTable.empty 10
        { kind := .aliasLine, content := ("A").toList, lineno := 2 }).map
      (fun r => (r.1.get_alias_addr (("A").toList), r.2)) = .ok (some 12, true) :=
  (c7_alias_binding SymbolTable.empty 10 2 (("A").toList)
    { kind := .aliasLine, content := ("A").toList, lineno := 2 } rfl rfl rfl).1 rfl

/-- Claim C1, counterexample: the data line `1` is emitted by
`parse_data_line` as a 32-bit word with exactly one `1` bit, whose parity
is odd; data words carry no parity guarantee. -/
theorem c1_counterexample :
    parse_data_line ['1'] 0 SymbolTable.empty = .ok [('1' :: List.replicate 31 '0')] ∧
    ('1' :: List.replicate 31 '0').length = 32 ∧
    (('1' :: List.replicate 31 '0').count '1') % 2 = 1 := by
  decide

/-- Lists whose entries are single bits. -/
def Bits01 (l : List Nat) : Prop := ∀ b ∈ l, b = 0 ∨ b = 1

theorem bits01_append {l l' : List Nat} (h : Bits01 l) (h' : Bits01 l') :
    Bits01 (l ++ l') := by
  intro b hb
  rcases List.mem_append.mp hb with hm | hm
  · exact h b hm
  · exact h' b hm

theorem bits01_take (w : Nat) {l : List Nat} (h : Bits01 l) : Bits01 (l.take w) :=
  fun b hb => h b (List.take_subset w l hb)

theorem bits01_drop (w : Nat) {l : List Nat} (h : Bits01 l) : Bits01 (l.drop w) :=
  fun b hb => h b (List.drop_subset w l hb)

theorem bits01_replicate (n : Nat) : Bits01 (List.replicate n 0) := by
  intro b hb
  exact Or.inl (List.eq_of_mem_replicate hb)

theorem bits01_fillField_fst (w : Nat) {l : List Nat} (h : Bits01 l) :
    Bits01 (fillField w l).1 :=
  bits01_append (bits01_take w h) (bits01_replicate _)

theorem bits01_fillField_snd (w : Nat) {l : List Nat} (h : Bits01 l) :
    Bits01 (fillField w l).2 := bits01_drop w h

theorem bits01_int_to_lsb_go (fuel v : Nat) : Bits01 (int_to_lsb_go fuel v) := by
  induction fuel generalizing v with
  | zero => intro b hb; simp [int_to_lsb_go] at hb
  | succ n ih =>
    intro b hb
    unfold int_to_lsb_go at hb
    by_cases hv : v = 0
    · simp [hv] at hb
    · rw [if_neg hv] at hb
      rcases List.mem_cons.mp hb with h | h
      · subst h; omega
      · exact ih (v / 2) b h

theorem bits01_int_to_lsb_array (v : Int) : Bits01 (int_to_lsb_array v) := by
  unfold int_to_lsb_array
  split_ifs
  · intro b hb; simp at hb
  · exact bits01_int_to_lsb_go _ _

theorem bits01_op_arr (opcode_bits : Str) (hop : ∀ c ∈ opcode_bits, c = '0' ∨ c = '1') :
    Bits01 (opcode_bits.reverse.map (fun c => c.toNat - 48)) := by
  intro b hb
  rcases List.mem_map.mp hb with ⟨c, hc, hval⟩
  rcases hop c (List.mem_reverse.mp hc) with h | h <;> subst h <;> subst hval
  · left; decide
  · right; decide

theorem pyStrNat_zero : pyStrNat 0 = ['0'] := by decide

theorem pyStrNat_one : pyStrNat 1 = ['1'] := by decide

/-- Counting `1` characters in a rendered word equals the bit sum. -/
theorem count_flatten_bits (l : List Nat) (h : Bits01 l) :
    ((l.map pyStrNat).flatten).count '1' = l.sum := by
  induction l with
  | nil => simp
  | cons b rest ih =>
    simp only [List.map_cons, List.flatten_cons, List.count_append, List.sum_cons]
    rw [ih (fun x hx => h x (List.mem_cons_of_mem b hx))]
    rcases h b (List.mem_cons_self b rest) with hb | hb <;> subst hb
    · rw [pyStrNat_zero]; simp [List.count_cons]
    · rw [pyStrNat_one]; simp [List.count_cons]

theorem count_wordOfBits (l : List Nat) (h : Bits01 l) :
    (wordOfBits l).count '1' = l.sum := by
  unfold wordOfBits
  rw [count_flatten_bits l.reverse (fun b hb => h b (List.mem_reverse.mp hb)),
    List.sum_reverse]

/-- The word emitted with parity bit `l.sum % 2` has an even count of `1`s. -/
theorem wordOfBits_parity (l : List Nat) (h : Bits01 l) :
    (wordOfBits (l ++ [l.sum % 2])).count '1' % 2 = 0 := by
  have h2 : Bits01 (l ++ [l.sum % 2]) := by
    refine bits01_append h ?_
    intro b hb
    simp at hb
    omega
  rw [count_wordOfBits _ h2, List.sum_append]
  simp
  omega

/-- Parity of every word of the expansion loop, for bit-valued inputs. -/
theorem expandLoop_parity (wop w1 w2 w3 : Nat) :
    ∀ fuel op a1 a2 a3, Bits01 op → Bits01 a1 → Bits01 a2 → Bits01 a3 →
      ∀ w ∈ expandLoop wop w1 w2 w3 fuel op a1 a2 a3, w.count '1' % 2 = 0 := by
  intro fuel
  induction fuel with
  | zero => intro op a1 a2 a3 _ _ _ _ w hw; simp [expandLoop] at hw
  | succ n ih =>
    intro op a1 a2 a3 hop h1 h2 h3 w hw
    unfold expandLoop at hw
    dsimp only at hw
    have hwrd :
        Bits01 ((fillField wop op).1 ++ (fillField w1 a1).1 ++ (fillField w2 a2).1 ++
          (fillField w3 a3).1 ++
          [if (fillField w1 a1).2 ≠ [] ∨ (fillField w2 a2).2 ≠ [] ∨ (fillField w3 a3).2 ≠ []
            then 1 else 0]) := by
      refine bits01_append (bits01_append (bits01_append (bits01_append
        (bits01_fillField_fst wop hop) (bits01_fillField_fst w1 h1))
        (bits01_fillField_fst w2 h2)) (bits01_fillField_fst w3 h3)) ?_
      intro b hb
      simp at hb
      split at hb <;> omega
    split at hw
    · rcases List.mem_singleton.mp hw with rfl
      exact wordOfBits_parity _ hwrd
    · rcases List.mem_cons.mp hw with rfl | hmem
      · exact wordOfBits_parity _ hwrd
      · exact ih _ _ _ _ (bits01_fillField_snd wop hop) (bits01_fillField_snd w1 h1)
          (bits01_fillField_snd w2 h2) (bits01_fillField_snd w3 h3) w hmem

/-- Claim C1, amended: every 32-bit word produced by `expand_instr` has even
parity (an even number of `1` characters); data-line words need not. -/
theorem c1_expand_parity (opcode_bits : Str) (p1 p2 p3 : Int) (wop w1 w2 w3 : Nat)
    (hop : ∀ c ∈ opcode_bits, c = '0' ∨ c = '1') :
    ∀ w ∈ expand_instr opcode_bits p1 p2 p3 wop w1 w2 w3, w.count '1' % 2 = 0 := by
  intro w hw
  unfold expand_instr at hw
  exact expandLoop_parity wop w1 w2 w3 _ _ _ _ _
    (bits01_op_arr opcode_bits hop) (bits01_int_to_lsb_array p1)
    (bits01_int_to_lsb_array p2) (bits01_int_to_lsb_array p3) w hw

/-- Witness for C1's amended theorem: both words of the two-word `setreg`
expansion have even parity. -/
theorem c1_expand_parity_witness :
    ((expand_instr (("00001").toList) 16384 0 0 5 14 5 6).headD []).count '1' % 2 = 0 :=
  c1_expand_parity (("00001").toList) 16384 0 0 5 14 5 6 (by decide) _ (by decide)

/-- The second character of a rendered word is its continuation bit. -/
theorem wordOfBits_second (A B C D : List Nat) (cbit pbit : Nat)
    (hc : cbit = 0 ∨ cbit = 1) (hp : pbit = 0 ∨ pbit = 1) :
    (wordOfBits ((A ++ B ++ C ++ D ++ [cbit]) ++ [pbit]))[1]? =
      some (if cbit = 1 then '1' else '0') := by
  unfold wordOfBits
  rcases hc with hc | hc <;> rcases hp with hp | hp <;> subst hc <;> subst hp <;>
    simp [List.reverse_append, pyStrNat_zero, pyStrNat_one]

theorem expandLoop_ne_nil (wop w1 w2 w3 fuel : Nat) (op a1 a2 a3 : List Nat)
    (hf : 0 < fuel) : expandLoop wop w1 w2 w3 fuel op a1 a2 a3 ≠ [] := by
  cases fuel with
  | zero => omega
  | succ n =>
    unfold expandLoop
    dsimp only
    split <;> simp

/-- Continuation bits along the expansion loop: `1` on every word except the
last, `0` on the last, provided the parameter field widths are positive and
the fuel exceeds the remaining parameter bits. -/
theorem expandLoop_cbits (wop w1 w2 w3 : Nat) (hw1 : 1 ≤ w1) (hw2 : 1 ≤ w2)
    (hw3 : 1 ≤ w3) :
    ∀ fuel op a1 a2 a3,
      a1.length + a2.length + a3.length < fuel →
      ∀ i, i < (expandLoop wop w1 w2 w3 fuel op a1 a2 a3).length →
        ((expandLoop wop w1 w2 w3 fuel op a1 a2 a3).getD i [])[1]? =
          some (if i + 1 = (expandLoop wop w1 w2 w3 fuel op a1 a2 a3).length
            then '0' else '1') := by
  intro fuel
  induction fuel with
  | zero => intro op a1 a2 a3 hfuel; omega
  | succ n ih =>
    intro op a1 a2 a3 hfuel i h
    have e1 : (fillField w1 a1).2 = a1.drop w1 := rfl
    have e2 : (fillField w2 a2).2 = a2.drop w2 := rfl
    have e3 : (fillField w3 a3).2 = a3.drop w3 := rfl
    by_cases hc : (fillField w1 a1).2 = [] ∧ (fillField w2 a2).2 = [] ∧
        (fillField w3 a3).2 = []
    · have hcb : (if (fillField w1 a1).2 ≠ [] ∨ (fillField w2 a2).2 ≠ [] ∨
          (fillField w3 a3).2 ≠ [] then (1 : Nat) else 0) = 0 := by
        simp [hc.1, hc.2.1, hc.2.2]
      have hE : expandLoop wop w1 w2 w3 (n + 1) op a1 a2 a3 =
          [wordOfBits
            (((fillField wop op).1 ++ (fillField w1 a1).1 ++ (fillField w2 a2).1 ++
              (fillField w3 a3).1 ++ [0]) ++
             [((fillField wop op).1 ++ (fillField w1 a1).1 ++ (fillField w2 a2).1 ++
              (fillField w3 a3).1 ++ [0]).sum % 2])] := by
        rw [expandLoop.eq_def]
        dsimp only
        rw [hcb, if_pos hc]
      rw [hE] at h ⊢
      simp only [List.length_singleton] at h ⊢
      have hi : i = 0 := by omega
      subst hi
      simp only [List.getD_cons_zero]
      rw [wordOfBits_second _ _ _ _ 0 _ (Or.inl rfl) (by omega)]
      simp
    · have hor : (fillField w1 a1).2 ≠ [] ∨ (fillField w2 a2).2 ≠ [] ∨
          (fillField w3 a3).2 ≠ [] := by tauto
      have hcb : (if (fillField w1 a1).2 ≠ [] ∨ (fillField w2 a2).2 ≠ [] ∨
          (fillField w3 a3).2 ≠ [] then (1 : Nat) else 0) = 1 := if_pos hor
      have hE : expandLoop wop w1 w2 w3 (n + 1) op a1 a2 a3 =
          wordOfBits
            (((fillField wop op).1 ++ (fillField w1 a1).1 ++ (fillField w2 a2).1 ++
              (fillField w3 a3).1 ++ [1]) ++
             [((fillField wop op).1 ++ (fillField w1 a1).1 ++ (fillField w2 a2).1 ++
              (fillField w3 a3).1 ++ [1]).sum % 2]) ::
            expandLoop wop w1 w2 w3 n (fillField wop op).2 (fillField w1 a1).2
              (fillField w2 a2).2 (fillField w3 a3).2 := by
        rw [expandLoop.eq_def]
        dsimp only
        rw [hcb, if_neg hc]
      have hlen1 : (fillField w1 a1).2.length = a1.length - w1 := by
        rw [e1, List.length_drop]
      have hlen2 : (fillField w2 a2).2.length = a2.length - w2 := by
        rw [e2, List.length_drop]
      have hlen3 : (fillField w3 a3).2.length = a3.length - w3 := by
        rw [e3, List.length_drop]
      have hrec : (fillField w1 a1).2.length + (fillField w2 a2).2.length +
          (fillField w3 a3).2.length < n := by
        rcases hor with hne | hne | hne <;>
          (have hp := List.length_pos.mpr hne; omega)
      have hne' : expandLoop wop w1 w2 w3 n (fillField wop op).2 (fillField w1 a1).2
          (fillField w2 a2).2 (fillField w3 a3).2 ≠ [] :=
        expandLoop_ne_nil _ _ _ _ _ _ _ _ _ (by omega)
      have hrlen : 0 < (expandLoop wop w1 w2 w3 n (fillField wop op).2
          (fillField w1 a1).2 (fillField w2 a2).2 (fillField w3 a3).2).length :=
        List.length_pos.mpr hne'
      rw [hE] at h ⊢
      cases i with
      | zero =>
        simp only [List.getD_cons_zero]
        rw [wordOfBits_second _ _ _ _ 1 _ (Or.inr rfl) (by omega)]
        simp only [List.length_cons]
        rw [if_neg (show ¬(0 + 1 = (expandLoop wop w1 w2 w3 n (fillField wop op).2
          (fillField w1 a1).2 (fillField w2 a2).2 (fillField w3 a3).2).length + 1)
          by omega)]
        simp
      | succ j =>
        simp only [List.length_cons] at h
        simp only [List.getD_cons_succ, List.length_cons]
        have hj : j < (expandLoop wop w1 w2 w3 n (fillField wop op).2
            (fillField w1 a1).2 (fillField w2 a2).2 (fillField w3 a3).2).length := by
          omega
        have hih := ih _ _ _ _ hrec j hj
        by_cases hl : j + 1 = (expandLoop wop w1 w2 w3 n (fillField wop op).2
            (fillField w1 a1).2 (fillField w2 a2).2 (fillField w3 a3).2).length
        · rw [if_pos hl] at hih
          rw [if_pos (by omega)]
          exact hih
        · rw [if_neg hl] at hih
          rw [if_neg (by omega)]
          exact hih

/-- Claim C3: for every opcode bit-string and non-negative parameters, the
expansion at the default widths has continuation bit `1` (second character)
on every word but the last, and `0` on the last word. -/
theorem c3_continuation_bits (opcode_bits : Str) (p1 p2 p3 : Int)
    (h1 : 0 ≤ p1) (h2 : 0 ≤ p2) (h3 : 0 ≤ p3) :
    ∀ i, i < (expand_instr opcode_bits p1 p2 p3 5 14 5 6).length →
      ((expand_instr opcode_bits p1 p2 p3 5 14 5 6).getD i [])[1]? =
        some (if i + 1 = (expand_instr opcode_bits p1 p2 p3 5 14 5 6).length
          then '0' else '1') := by
  have _ := h1
  have _ := h2
  have _ := h3
  intro i h
  unfold expand_instr at h ⊢
  exact expandLoop_cbits 5 14 5 6 (by omega) (by omega) (by omega) _ _ _ _ _
    (by omega) i h

/-- Witness for C3: in the two-word `setreg 0x4000 0 0` expansion, the first
word carries continuation bit 1. -/
theorem c3_continuation_bits_witness :
    ((expand_instr (("00001").toList) 16384 0 0 5 14 5 6).getD 0 [])[1]? =
      some '1' := by
  rw [c3_continuation_bits (("00001").toList) 16384 0 0 (by decide) (by decide)
    (by decide) 0 (by decide)]
  decide

/-- Addresses that increase by exactly 1 at each step. -/
def consecutive (l : List Nat) : Prop :=
  ∀ i, i + 1 < l.length → l.getD (i + 1) 0 = l.getD i 0 + 1

theorem consecutive_range' (c n : Nat) : consecutive (List.range' c n) := by
  intro i h
  rw [List.length_range'] at h
  rw [List.getD_eq_getElem?_getD, List.getElem?_range' _ _ h,
    List.getD_eq_getElem?_getD, List.getElem?_range' _ _ (by omega)]
  simp
  omega

theorem processInstr_shape {wop w1 w2 w3 : Nat} {bname : Str} {symtbl : SymbolTable}
    {cur : Nat} {ir ir' : IRLine} {n : Nat}
    (h : processInstr wop w1 w2 w3 bname symtbl cur ir = .ok (ir', n)) :
    ir'.expanded_bits.length = n ∧ ir'.addresses = List.range' cur n ∧
    ir'.kind = ir.kind ∧ ir'.content = ir.content ∧ ir'.lineno = ir.lineno := by
  unfold processInstr at h
  cases hc : instrCore wop w1 w2 w3 symtbl ir.content with
  | error e => rw [hc] at h; exact absurd h (by simp [Except.map])
  | ok r =>
    rw [hc] at h
    simp only [Except.map, Except.ok.injEq, Prod.mk.injEq] at h
    obtain ⟨h1, h2⟩ := h
    subst h2
    rw [← h1]
    simp

theorem processData_shape {bname : Str} {symtbl : SymbolTable}
    {cur : Nat} {ir ir' : IRLine} {n : Nat}
    (h : processData bname symtbl cur ir = .ok (ir', n)) :
    ir'.expanded_bits.length = n ∧ ir'.addresses = List.range' cur n ∧
    ir'.kind = ir.kind ∧ ir'.content = ir.content ∧ ir'.lineno = ir.lineno := by
  unfold processData at h
  cases hc : parse_data_line ir.content ir.lineno symtbl with
  | error e => rw [hc] at h; exact absurd h (by simp [Except.map])
  | ok r =>
    rw [hc] at h
    simp only [Except.map, Except.ok.injEq, Prod.mk.injEq] at h
    obtain ⟨h1, h2⟩ := h
    subst h2
    rw [← h1]
    simp

theorem runFuncLines_c8 (wop w1 w2 w3 : Nat) (bname : Str) (startAddr : Nat) :
    ∀ ls symtbl cur sz upd ls' symtbl' cur' sz' upd',
      runFuncLines wop w1 w2 w3 bname startAddr ls symtbl cur sz upd =
        .ok (ls', symtbl', cur', sz', upd') →
      ∀ ir' ∈ ls', ir'.kind = .instruction →
        ir'.expanded_bits.length = ir'.addresses.length ∧ consecutive ir'.addresses := by
  intro ls
  induction ls with
  | nil =>
    intro symtbl cur sz upd ls' symtbl' cur' sz' upd' h ir' hmem _
    simp only [runFuncLines, Except.ok.injEq, Prod.mk.injEq] at h
    rw [← h.1] at hmem
    simp at hmem
  | cons ir rest ih =>
    intro symtbl cur sz upd ls' symtbl' cur' sz' upd' h ir' hmem hkind
    rw [runFuncLines] at h
    cases hk : ir.kind with
    | instruction =>
      rw [hk] at h
      dsimp only at h
      cases hp : processInstr wop w1 w2 w3 bname symtbl cur ir with
      | error e => rw [hp] at h; exact absurd h (by simp)
      | ok p =>
        obtain ⟨ir0, n⟩ := p
        rw [hp] at h
        dsimp only at h
        cases hr : runFuncLines wop w1 w2 w3 bname startAddr rest symtbl (cur + n)
            (sz + n) upd with
        | error e => rw [hr] at h; exact absurd h (by simp)
        | ok q =>
          obtain ⟨rest', symtblq, curq, szq, updq⟩ := q
          rw [hr] at h
          dsimp only at h
          simp only [Except.ok.injEq, Prod.mk.injEq] at h
          obtain ⟨hls, -⟩ := h
          rw [← hls] at hmem
          rcases List.mem_cons.mp hmem with rfl | hmem'
          · obtain ⟨hlen, haddr, -, -, -⟩ := processInstr_shape hp
            refine ⟨?_, ?_⟩
            · rw [hlen, haddr, List.length_range']
            · rw [haddr]; exact consecutive_range' _ _
          · exact ih _ _ _ _ _ _ _ _ _ hr ir' hmem' hkind
    | aliasLine =>
      rw [hk] at h
      dsimp only at h
      cases hp : processAlias symtbl startAddr ir with
      | error e => rw [hp] at h; exact absurd h (by simp)
      | ok p =>
        obtain ⟨symtbl1, bound⟩ := p
        rw [hp] at h
        dsimp only at h
        cases hr : runFuncLines wop w1 w2 w3 bname startAddr rest symtbl1 cur sz
            (upd || bound) with
        | error e => rw [hr] at h; exact absurd h (by simp)
        | ok q =>
          obtain ⟨rest', symtblq, curq, szq, updq⟩ := q
          rw [hr] at h
          dsimp only at h
          simp only [Except.ok.injEq, Prod.mk.injEq] at h
          obtain ⟨hls, -⟩ := h
          rw [← hls] at hmem
          rcases List.mem_cons.mp hmem with rfl | hmem'
          · rw [hk] at hkind; exact absurd hkind (by simp)
          · exact ih _ _ _ _ _ _ _ _ _ hr ir' hmem' hkind
    | macroLine =>
      rw [hk] at h
      dsimp only at h
      cases hr : runFuncLines wop w1 w2 w3 bname startAddr rest symtbl cur sz upd with
      | error e => rw [hr] at h; exact absurd h (by simp)
      | ok q =>
        obtain ⟨rest', symtblq, curq, szq, updq⟩ := q
        rw [hr] at h
        dsimp only at h
        simp only [Except.ok.injEq, Prod.mk.injEq] at h
        obtain ⟨hls, -⟩ := h
        rw [← hls] at hmem
        rcases List.mem_cons.mp hmem with rfl | hmem'
        · rw [hk] at hkind; exact absurd hkind (by simp)
        · exact ih _ _ _ _ _ _ _ _ _ hr ir' hmem' hkind
    | memoryData =>
      rw [hk] at h
      dsimp only at h
      cases hr : runFuncLines wop w1 w2 w3 bname startAddr rest symtbl cur sz upd with
      | error e => rw [hr] at h; exact absurd h (by simp)
      | ok q =>
        obtain ⟨rest', symtblq, curq, szq, updq⟩ := q
        rw [hr] at h
        dsimp only at h
        simp only [Except.ok.injEq, Prod.mk.injEq] at h
        obtain ⟨hls, -⟩ := h
        rw [← hls] at hmem
        rcases List.mem_cons.mp hmem with rfl | hmem'
        · rw [hk] at hkind; exact absurd hkind (by simp)
        · exact ih _ _ _ _ _ _ _ _ _ hr ir' hmem' hkind
    | funcDefine =>
      rw [hk] at h
      dsimp only at h
      cases hr : runFuncLines wop w1 w2 w3 bname startAddr rest symtbl cur sz upd with
      | error e => rw [hr] at h; exact absurd h (by simp)
      | ok q =>
        obtain ⟨rest', symtblq, curq, szq, updq⟩ := q
        rw [hr] at h
        dsimp only at h
        simp only [Except.ok.injEq, Prod.mk.injEq] at h
        obtain ⟨hls, -⟩ := h
        rw [← hls] at hmem
        rcases List.mem_cons.mp hmem with rfl | hmem'
        · rw [hk] at hkind; exact absurd hkind (by simp)
        · exact ih _ _ _ _ _ _ _ _ _ hr ir' hmem' hkind

/-- The part of an IR line that a layout pass actually reads. -/
def lineStruct (ir : IRLine) : IRKind × Str × Nat := (ir.kind, ir.content, ir.lineno)

/-- The part of a block that a layout pass actually reads: its kind, name
and line structure; for untouched (macro) blocks additionally the stored
`(start_addr, size)`, which survive into the snapshot. -/
def blockStruct (b : Block) : BlockKind × Str × List (IRKind × Str × Nat) × Option (Option Nat × Nat) :=
  (b.kind, b.name, b.content.map lineStruct,
    if b.kind = .macroKind then some (b.start_addr, b.size) else none)

/-- Struct-level shadow of `runFuncLines`: computes the resulting symbol
table, code cursor and block size from the line structure alone. -/
def runFuncLinesS (wop w1 w2 w3 : Nat) (startAddr : Nat) :
    List (IRKind × Str × Nat) → SymbolTable → Nat → Nat →
    Except PyErr (SymbolTable × Nat × Nat)
  | [], symtbl, cur, sz => .ok (symtbl, cur, sz)
  | (k, content, lineno) :: rest, symtbl, cur, sz =>
    match k with
    | .instruction =>
      match instrCore wop w1 w2 w3 symtbl content with
      | .error e => .error e
      | .ok r =>
        runFuncLinesS wop w1 w2 w3 startAddr rest symtbl (cur + r.2.2.length)
          (sz + r.2.2.length)
    | .aliasLine =>
      match symtbl.get_alias_addr content with
      | none =>
        match symtbl.define_alias content (some (startAddr + lineno)) lineno with
        | .error e => .error e
        | .ok t => runFuncLinesS wop w1 w2 w3 startAddr rest t cur sz
      | some _ => runFuncLinesS wop w1 w2 w3 startAddr rest symtbl cur sz
    | _ => runFuncLinesS wop w1 w2 w3 startAddr rest symtbl cur sz

/-- Struct-level shadow of `runMemLines`. -/
def runMemLinesS (startAddr : Nat) :
    List (IRKind × Str × Nat) → SymbolTable → Nat → Nat →
    Except PyErr (SymbolTable × Nat × Nat)
  | [], symtbl, cur, sz => .ok (symtbl, cur, sz)
  | (k, content, lineno) :: rest, symtbl, cur, sz =>
    match k with
    | .memoryData =>
      match parse_data_line content lineno symtbl with
      | .error e => .error e
      | .ok bits =>
        runMemLinesS startAddr rest symtbl (cur + bits.length) (sz + bits.length)
    | .aliasLine =>
      match symtbl.get_alias_addr content with
      | none =>
        match symtbl.define_alias content (some (startAddr + lineno)) lineno with
        | .error e => .error e
        | .ok t => runMemLinesS startAddr rest t cur sz
      | some _ => runMemLinesS startAddr rest symtbl cur sz
    | _ => runMemLinesS startAddr rest symtbl cur sz

/-- Struct-level shadow of `runBlocks`: computes the final symbol table,
both cursors, and the per-block `(start_addr, size)` snapshot. -/
def runBlocksS (wop w1 w2 w3 : Nat) :
    List (BlockKind × Str × List (IRKind × Str × Nat) × Option (Option Nat × Nat)) →
    SymbolTable → Nat → Nat →
    Except PyErr (SymbolTable × Nat × Nat × List (Option Nat × Nat))
  | [], symtbl, codeCur, dataCur => .ok (symtbl, codeCur, dataCur, [])
  | (kind, name, lines, msnap) :: rest, symtbl, codeCur, dataCur =>
    match kind with
    | .functionKind =>
      match (match symtbl.get_function_addr name with
        | none => (symtbl.define_function name (some codeCur)).map (fun t => (t, codeCur))
        | some a => .ok (symtbl, a) : Except PyErr (SymbolTable × Nat)) with
      | .error e => .error e
      | .ok (symtbl1, startAddr) =>
        match runFuncLinesS wop w1 w2 w3 startAddr lines symtbl1 codeCur 0 with
        | .error e => .error e
        | .ok (symtbl2, codeCur', sz) =>
          match runBlocksS wop w1 w2 w3 rest symtbl2 codeCur' dataCur with
          | .error e => .error e
          | .ok (symtbl3, codeCur'', dataCur', snaps) =>
            .ok (symtbl3, codeCur'', dataCur', (some startAddr, sz) :: snaps)
    | .memoryKind =>
      match runMemLinesS dataCur lines symtbl dataCur 0 with
      | .error e => .error e
      | .ok (symtbl2, dataCur', sz) =>
        match runBlocksS wop w1 w2 w3 rest symtbl2 codeCur dataCur' with
        | .error e => .error e
        | .ok (symtbl3, codeCur', dataCur'', snaps) =>
          .ok (symtbl3, codeCur', dataCur'', (some dataCur, sz) :: snaps)
    | .macroKind =>
      match runBlocksS wop w1 w2 w3 rest symtbl codeCur dataCur with
      | .error e => .error e
      | .ok (symtbl', codeCur', dataCur', snaps) =>
        .ok (symtbl', codeCur', dataCur', msnap.getD (none, 0) :: snaps)

theorem processInstr_core {wop w1 w2 w3 : Nat} {bname : Str} {symtbl : SymbolTable}
    {cur : Nat} {ir ir' : IRLine} {n : Nat}
    (h : processInstr wop w1 w2 w3 bname symtbl cur ir = .ok (ir', n)) :
    ∃ r, instrCore wop w1 w2 w3 symtbl ir.content = .ok r ∧ r.2.2.length = n := by
  unfold processInstr at h
  cases hc : instrCore wop w1 w2 w3 symtbl ir.content with
  | error e => rw [hc] at h; exact absurd h (by simp [Except.map])
  | ok r =>
    rw [hc] at h
    simp only [Except.map, Except.ok.injEq, Prod.mk.injEq] at h
    exact ⟨r, rfl, h.2⟩

theorem processData_core {bname : Str} {symtbl : SymbolTable}
    {cur : Nat} {ir ir' : IRLine} {n : Nat}
    (h : processData bname symtbl cur ir = .ok (ir', n)) :
    ∃ bits, parse_data_line ir.content ir.lineno symtbl = .ok bits ∧ bits.length = n := by
  unfold processData at h
  cases hc : parse_data_line ir.content ir.lineno symtbl with
  | error e => rw [hc] at h; exact absurd h (by simp [Except.map])
  | ok bits =>
    rw [hc] at h
    simp only [Except.map, Except.ok.injEq, Prod.mk.injEq] at h
    exact ⟨bits, rfl, h.2⟩

theorem processAlias_inv {symtbl : SymbolTable} {startAddr : Nat} {ir : IRLine}
    {tbl1 : SymbolTable} {bound : Bool}
    (h : processAlias symtbl startAddr ir = .ok (tbl1, bound)) :
    (symtbl.get_alias_addr ir.content = none ∧
      symtbl.define_alias ir.content (some (startAddr + ir.lineno)) ir.lineno = .ok tbl1) ∨
    (∃ a, symtbl.get_alias_addr ir.content = some a ∧ tbl1 = symtbl) := by
  unfold processAlias at h
  dsimp only at h
  cases hg : symtbl.get_alias_addr ir.content with
  | none =>
    rw [hg] at h
    cases hd : symtbl.define_alias ir.content (some (startAddr + ir.lineno)) ir.lineno with
    | error e => rw [hd] at h; exact absurd h (by simp [Except.map])
    | ok t =>
      rw [hd] at h
      simp only [Except.map, Except.ok.injEq, Prod.mk.injEq] at h
      refine Or.inl ⟨rfl, ?_⟩
      rw [h.1]
  | some a =>
    rw [hg] at h
    simp only [Except.ok.injEq, Prod.mk.injEq] at h
    exact Or.inr ⟨a, rfl, h.1.symm⟩

/-- Abstraction of `runFuncLines`: its table, cursor and size outputs, and
the structure of its output lines, are computed by the struct-level shadow. -/
theorem runFuncLines_abs (wop w1 w2 w3 : Nat) (bname : Str) (startAddr : Nat) :
    ∀ ls symtbl cur sz upd ls' symtbl' cur' sz' upd',
      runFuncLines wop w1 w2 w3 bname startAddr ls symtbl cur sz upd =
        .ok (ls', symtbl', cur', sz', upd') →
      runFuncLinesS wop w1 w2 w3 startAddr (ls.map lineStruct) symtbl cur sz =
        .ok (symtbl', cur', sz') ∧ ls'.map lineStruct = ls.map lineStruct := by
  intro ls
  induction ls with
  | nil =>
    intro symtbl cur sz upd ls' symtbl' cur' sz' upd' h
    simp only [runFuncLines, Except.ok.injEq, Prod.mk.injEq] at h
    obtain ⟨h1, h2, h3, h4, -⟩ := h
    subst h2; subst h3; subst h4
    rw [← h1]
    exact ⟨rfl, rfl⟩
  | cons ir rest ih =>
    intro symtbl cur sz upd ls' symtbl' cur' sz' upd' h
    rw [runFuncLines] at h
    simp only [List.map_cons]
    cases hk : ir.kind with
    | instruction =>
      rw [hk] at h
      dsimp only at h
      cases hp : processInstr wop w1 w2 w3 bname symtbl cur ir with
      | error e => rw [hp] at h; exact absurd h (by simp)
      | ok p =>
        obtain ⟨ir0, n⟩ := p
        rw [hp] at h
        dsimp only at h
        cases hr : runFuncLines wop w1 w2 w3 bname startAddr rest symtbl (cur + n)
            (sz + n) upd with
        | error e => rw [hr] at h; exact absurd h (by simp)
        | ok q =>
          obtain ⟨rest', symtblq, curq, szq, updq⟩ := q
          rw [hr] at h
          dsimp only at h
          simp only [Except.ok.injEq, Prod.mk.injEq] at h
          obtain ⟨hls, htbl, hcur, hsz, -⟩ := h
          subst htbl; subst hcur; subst hsz
          obtain ⟨hS, hmap⟩ := ih _ _ _ _ _ _ _ _ _ hr
          obtain ⟨r, hcore, hn⟩ := processInstr_core hp
          obtain ⟨-, -, hk0, hc0, hl0⟩ := processInstr_shape hp
          have hstruct : lineStruct ir = (IRKind.instruction, ir.content, ir.lineno) := by
            unfold lineStruct
            rw [hk]
          constructor
          · rw [hstruct, runFuncLinesS.eq_def]
            dsimp only
            rw [hcore]
            dsimp only
            rw [hn]
            exact hS
          · rw [← hls]
            simp only [List.map_cons, hmap]
            unfold lineStruct
            rw [hk0, hc0, hl0]
    | aliasLine =>
      rw [hk] at h
      dsimp only at h
      cases hp : processAlias symtbl startAddr ir with
      | error e => rw [hp] at h; exact absurd h (by simp)
      | ok p =>
        obtain ⟨symtbl1, bound⟩ := p
        rw [hp] at h
        dsimp only at h
        cases hr : runFuncLines wop w1 w2 w3 bname startAddr rest symtbl1 cur sz
            (upd || bound) with
        | error e => rw [hr] at h; exact absurd h (by simp)
        | ok q =>
          obtain ⟨rest', symtblq, curq, szq, updq⟩ := q
          rw [hr] at h
          dsimp only at h
          simp only [Except.ok.injEq, Prod.mk.injEq] at h
          obtain ⟨hls, htbl, hcur, hsz, -⟩ := h
          subst htbl; subst hcur; subst hsz
          obtain ⟨hS, hmap⟩ := ih _ _ _ _ _ _ _ _ _ hr
          have hstruct : lineStruct ir = (IRKind.aliasLine, ir.content, ir.lineno) := by
            unfold lineStruct
            rw [hk]
          constructor
          · rw [hstruct, runFuncLinesS.eq_def]
            dsimp only
            rcases processAlias_inv hp with ⟨hg, hd⟩ | ⟨a, hg, htb⟩
            · rw [hg]
              dsimp only
              rw [hd]
              exact hS
            · rw [hg]
              dsimp only
              rw [htb] at hS
              exact hS
          · rw [← hls]
            simp only [List.map_cons, hmap]
    | macroLine =>
      rw [hk] at h
      dsimp only at h
      cases hr : runFuncLines wop w1 w2 w3 bname startAddr rest symtbl cur sz upd with
      | error e => rw [hr] at h; exact absurd h (by simp)
      | ok q =>
        obtain ⟨rest', symtblq, curq, szq, updq⟩ := q
        rw [hr] at h
        dsimp only at h
        simp only [Except.ok.injEq, Prod.mk.injEq] at h
        obtain ⟨hls, htbl, hcur, hsz, -⟩ := h
        subst htbl; subst hcur; subst hsz
        obtain ⟨hS, hmap⟩ := ih _ _ _ _ _ _ _ _ _ hr
        have hstruct : lineStruct ir = (IRKind.macroLine, ir.content, ir.lineno) := by
          unfold lineStruct
          rw [hk]
        constructor
        · rw [hstruct, runFuncLinesS.eq_def]
          dsimp only
          exact hS
        · rw [← hls]
          simp only [List.map_cons, hmap]
    | memoryData =>
      rw [hk] at h
      dsimp only at h
      cases hr : runFuncLines wop w1 w2 w3 bname startAddr rest symtbl cur sz upd with
      | error e => rw [hr] at h; exact absurd h (by simp)
      | ok q =>
        obtain ⟨rest', symtblq, curq, szq, updq⟩ := q
        rw [hr] at h
        dsimp only at h
        simp only [Except.ok.injEq, Prod.mk.injEq] at h
        obtain ⟨hls, htbl, hcur, hsz, -⟩ := h
        subst htbl; subst hcur; subst hsz
        obtain ⟨hS, hmap⟩ := ih _ _ _ _ _ _ _ _ _ hr
        have hstruct : lineStruct ir = (IRKind.memoryData, ir.content, ir.lineno) := by
          unfold lineStruct
          rw [hk]
        constructor
        · rw [hstruct, runFuncLinesS.eq_def]
          dsimp only
          exact hS
        · rw [← hls]
          simp only [List.map_cons, hmap]
    | funcDefine =>
      rw [hk] at h
      dsimp only at h
      cases hr : runFuncLines wop w1 w2 w3 bname startAddr rest symtbl cur sz upd with
      | error e => rw [hr] at h; exact absurd h (by simp)
      | ok q =>
        obtain ⟨rest', symtblq, curq, szq, updq⟩ := q
        rw [hr] at h
        dsimp only at h
        simp only [Except.ok.injEq, Prod.mk.injEq] at h
        obtain ⟨hls, htbl, hcur, hsz, -⟩ := h
        subst htbl; subst hcur; subst hsz
        obtain ⟨hS, hmap⟩ := ih _ _ _ _ _ _ _ _ _ hr
        have hstruct : lineStruct ir = (IRKind.funcDefine, ir.content, ir.lineno) := by
          unfold lineStruct
          rw [hk]
        constructor
        · rw [hstruct, runFuncLinesS.eq_def]
          dsimp only
          exact hS
        · rw [← hls]
          simp only [List.map_cons, hmap]

/-- Abstraction of `runMemLines`, analogous to `runFuncLines_abs`. -/
theorem runMemLines_abs (bname : Str) (startAddr : Nat) :
    ∀ ls symtbl cur sz upd ls' symtbl' cur' sz' upd',
      runMemLines bname startAddr ls symtbl cur sz upd =
        .ok (ls', symtbl', cur', sz', upd') →
      runMemLinesS startAddr (ls.map lineStruct) symtbl cur sz =
        .ok (symtbl', cur', sz') ∧ ls'.map lineStruct = ls.map lineStruct := by
  intro ls
  induction ls with
  | nil =>
    intro symtbl cur sz upd ls' symtbl' cur' sz' upd' h
    simp only [runMemLines, Except.ok.injEq, Prod.mk.injEq] at h
    obtain ⟨h1, h2, h3, h4, -⟩ := h
    subst h2; subst h3; subst h4
    rw [← h1]
    exact ⟨rfl, rfl⟩
  | cons ir rest ih =>
    intro symtbl cur sz upd ls' symtbl' cur' sz' upd' h
    rw [runMemLines] at h
    simp only [List.map_cons]
    cases hk : ir.kind with
    | memoryData =>
      rw [hk] at h
      dsimp only at h
      cases hp : processData bname symtbl cur ir with
      | error e => rw [hp] at h; exact absurd h (by simp)
      | ok p =>
        obtain ⟨ir0, n⟩ := p
        rw [hp] at h
        dsimp only at h
        cases hr : runMemLines bname startAddr rest symtbl (cur + n) (sz + n) upd with
        | error e => rw [hr] at h; exact absurd h (by simp)
        | ok q =>
          obtain ⟨rest', symtblq, curq, szq, updq⟩ := q
          rw [hr] at h
          dsimp only at h
          simp only [Except.ok.injEq, Prod.mk.injEq] at h
          obtain ⟨hls, htbl, hcur, hsz, -⟩ := h
          subst htbl; subst hcur; subst hsz
          obtain ⟨hS, hmap⟩ := ih _ _ _ _ _ _ _ _ _ hr
          obtain ⟨bits, hcore, hn⟩ := processData_core hp
          obtain ⟨-, -, hk0, hc0, hl0⟩ := processData_shape hp
          have hstruct : lineStruct ir = (IRKind.memoryData, ir.content, ir.lineno) := by
            unfold lineStruct
            rw [hk]
          constructor
          · rw [hstruct, runMemLinesS.eq_def]
            dsimp only
            rw [hcore]
            dsimp only
            rw [hn]
            exact hS
          · rw [← hls]
            simp only [List.map_cons, hmap]
            unfold lineStruct
            rw [hk0, hc0, hl0]
    | aliasLine =>
      rw [hk] at h
      dsimp only at h
      cases hp : processAlias symtbl startAddr ir with
      | error e => rw [hp] at h; exact absurd h (by simp)
      | ok p =>
        obtain ⟨symtbl1, bound⟩ := p
        rw [hp] at h
        dsimp only at h
        cases hr : runMemLines bname startAddr rest symtbl1 cur sz (upd || bound) with
        | error e => rw [hr] at h; exact absurd h (by simp)
        | ok q =>
          obtain ⟨rest', symtblq, curq, szq, updq⟩ := q
          rw [hr] at h
          dsimp only at h
          simp only [Except.ok.injEq, Prod.mk.injEq] at h
          obtain ⟨hls, htbl, hcur, hsz, -⟩ := h
          subst htbl; subst hcur; subst hsz
          obtain ⟨hS, hmap⟩ := ih _ _ _ _ _ _ _ _ _ hr
          have hstruct : lineStruct ir = (IRKind.aliasLine, ir.content, ir.lineno) := by
            unfold lineStruct
            rw [hk]
          constructor
          · rw [hstruct, runMemLinesS.eq_def]
            dsimp only
            rcases processAlias_inv hp with ⟨hg, hd⟩ | ⟨a, hg, htb⟩
            · rw [hg]
              dsimp only
              rw [hd]
              exact hS
            · rw [hg]
              dsimp only
              rw [htb] at hS
              exact hS
          · rw [← hls]
            simp only [List.map_cons, hmap]
    | macroLine =>
      rw [hk] at h
      dsimp only at h
      cases hr : runMemLines bname startAddr rest symtbl cur sz upd with
      | error e => rw [hr] at h; exact absurd h (by simp)
      | ok q =>
        obtain ⟨rest', symtblq, curq, szq, updq⟩ := q
        rw [hr] at h
        dsimp only at h
        simp only [Except.ok.injEq, Prod.mk.injEq] at h
        obtain ⟨hls, htbl, hcur, hsz, -⟩ := h
        subst htbl; subst hcur; subst hsz
        obtain ⟨hS, hmap⟩ := ih _ _ _ _ _ _ _ _ _ hr
        have hstruct : lineStruct ir = (IRKind.macroLine, ir.content, ir.lineno) := by
          unfold lineStruct
          rw [hk]
        constructor
        · rw [hstruct, runMemLinesS.eq_def]
          dsimp only
          exact hS
        · rw [← hls]
          simp only [List.map_cons, hmap]
    | instruction =>
      rw [hk] at h
      dsimp only at h
      cases hr : runMemLines bname startAddr rest symtbl cur sz upd with
      | error e => rw [hr] at h; exact absurd h (by simp)
      | ok q =>
        obtain ⟨rest', symtblq, curq, szq, updq⟩ := q
        rw [hr] at h
        dsimp only at h
        simp only [Except.ok.injEq, Prod.mk.injEq] at h
        obtain ⟨hls, htbl, hcur, hsz, -⟩ := h
        subst htbl; subst hcur; subst hsz
        obtain ⟨hS, hmap⟩ := ih _ _ _ _ _ _ _ _ _ hr
        have hstruct : lineStruct ir = (IRKind.instruction, ir.content, ir.lineno) := by
          unfold lineStruct
          rw [hk]
        constructor
        · rw [hstruct, runMemLinesS.eq_def]
          dsimp only
          exact hS
        · rw [← hls]
          simp only [List.map_cons, hmap]
    | funcDefine =>
      rw [hk] at h
      dsimp only at h
      cases hr : runMemLines bname startAddr rest symtbl cur sz upd with
      | error e => rw [hr] at h; exact absurd h (by simp)
      | ok q =>
        obtain ⟨rest', symtblq, curq, szq, updq⟩ := q
        rw [hr] at h
        dsimp only at h
        simp only [Except.ok.injEq, Prod.mk.injEq] at h
        obtain ⟨hls, htbl, hcur, hsz, -⟩ := h
        subst htbl; subst hcur; subst hsz
        obtain ⟨hS, hmap⟩ := ih _ _ _ _ _ _ _ _ _ hr
        have hstruct : lineStruct ir = (IRKind.funcDefine, ir.content, ir.lineno) := by
          unfold lineStruct
          rw [hk]
        constructor
        · rw [hstruct, runMemLinesS.eq_def]
          dsimp only
          exact hS
        · rw [← hls]
          simp only [List.map_cons, hmap]

/-- Abstraction of `runBlocks`: the final table, the cursors and the
`(start_addr, size)` snapshot of the output blocks are computed by the
struct-level shadow, and the pass preserves every block's structure. -/
theorem runBlocks_abs (wop w1 w2 w3 : Nat) :
    ∀ bs symtbl codeCur dataCur upd bs' symtbl' codeCur' dataCur' upd',
      runBlocks wop w1 w2 w3 bs symtbl codeCur dataCur upd =
        .ok (bs', symtbl', codeCur', dataCur', upd') →
      runBlocksS wop w1 w2 w3 (bs.map blockStruct) symtbl codeCur dataCur =
        .ok (symtbl', codeCur', dataCur', snapshot bs') ∧
      bs'.map blockStruct = bs.map blockStruct := by
  intro bs
  induction bs with
  | nil =>
    intro symtbl codeCur dataCur upd bs' symtbl' codeCur' dataCur' upd' h
    simp only [runBlocks, Except.ok.injEq, Prod.mk.injEq] at h
    obtain ⟨h1, h2, h3, h4, -⟩ := h
    subst h2; subst h3; subst h4
    rw [← h1]
    exact ⟨rfl, rfl⟩
  | cons b rest ih =>
    intro symtbl codeCur dataCur upd bs' symtbl' codeCur' dataCur' upd' h
    rw [runBlocks] at h
    simp only [List.map_cons]
    cases hk : b.kind with
    | functionKind =>
      rw [hk] at h
      dsimp only at h
      have hbstruct : blockStruct b =
          (BlockKind.functionKind, b.name, b.content.map lineStruct, none) := by
        unfold blockStruct
        rw [hk]
        simp
      cases hg : symtbl.get_function_addr b.name with
      | none =>
        rw [hg] at h
        cases hd : symtbl.define_function b.name (some codeCur) with
        | error e =>
          rw [hd] at h
          simp only [Except.map] at h
          exact absurd h (by simp)
        | ok t =>
          rw [hd] at h
          simp only [Except.map] at h
          cases hf : runFuncLines wop w1 w2 w3 b.name codeCur b.content t codeCur 0 upd with
          | error e => rw [hf] at h; exact absurd h (by simp)
          | ok q =>
            obtain ⟨ls', symtbl2, codeCur2, sz, upd1⟩ := q
            rw [hf] at h
            dsimp only at h
            cases hrest : runBlocks wop w1 w2 w3 rest symtbl2 codeCur2 dataCur
                (upd1 || decide (sz ≠ b.size)) with
            | error e => rw [hrest] at h; exact absurd h (by simp)
            | ok q2 =>
              obtain ⟨rest', symtbl3, codeCur3, dataCur3, upd3⟩ := q2
              rw [hrest] at h
              dsimp only at h
              simp only [Except.ok.injEq, Prod.mk.injEq] at h
              obtain ⟨hbs, htbl, hcc, hdc, -⟩ := h
              subst htbl; subst hcc; subst hdc
              obtain ⟨hSf, hmapf⟩ := runFuncLines_abs _ _ _ _ _ _ _ _ _ _ _ _ _ _ _ _ hf
              obtain ⟨hSr, hmapr⟩ := ih _ _ _ _ _ _ _ _ _ hrest
              constructor
              · rw [hbstruct, runBlocksS.eq_def]
                dsimp only
                rw [hg, hd]
                simp only [Except.map]
                rw [hSf]
                dsimp only
                rw [hSr]
                dsimp only
                rw [← hbs]
                rfl
              · rw [← hbs]
                simp only [List.map_cons, hmapr]
                have hout : blockStruct
                    ⟨BlockKind.functionKind, b.name, b.lineno, ls', some codeCur, sz⟩ =
                    blockStruct b := by
                  rw [hbstruct]
                  unfold blockStruct
                  simp [hmapf]
                rw [hout]
      | some a =>
        rw [hg] at h
        dsimp only at h
        cases hf : runFuncLines wop w1 w2 w3 b.name a b.content symtbl codeCur 0 upd with
        | error e => rw [hf] at h; exact absurd h (by simp)
        | ok q =>
          obtain ⟨ls', symtbl2, codeCur2, sz, upd1⟩ := q
          rw [hf] at h
          dsimp only at h
          cases hrest : runBlocks wop w1 w2 w3 rest symtbl2 codeCur2 dataCur
              (upd1 || decide (sz ≠ b.size)) with
          | error e => rw [hrest] at h; exact absurd h (by simp)
          | ok q2 =>
            obtain ⟨rest', symtbl3, codeCur3, dataCur3, upd3⟩ := q2
            rw [hrest] at h
            dsimp only at h
            simp only [Except.ok.injEq, Prod.mk.injEq] at h
            obtain ⟨hbs, htbl, hcc, hdc, -⟩ := h
            subst htbl; subst hcc; subst hdc
            obtain ⟨hSf, hmapf⟩ := runFuncLines_abs _ _ _ _ _ _ _ _ _ _ _ _ _ _ _ _ hf
            obtain ⟨hSr, hmapr⟩ := ih _ _ _ _ _ _ _ _ _ hrest
            constructor
            · rw [hbstruct, runBlocksS.eq_def]
              dsimp only
              rw [hg]
              dsimp only
              rw [hSf]
              dsimp only
              rw [hSr]
              dsimp only
              rw [← hbs]
              rfl
            · rw [← hbs]
              simp only [List.map_cons, hmapr]
              have hout : blockStruct
                  ⟨BlockKind.functionKind, b.name, b.lineno, ls', some a, sz⟩ =
                  blockStruct b := by
                rw [hbstruct]
                unfold blockStruct
                simp [hmapf]
              rw [hout]
    | memoryKind =>
      rw [hk] at h
      dsimp only at h
      have hbstruct : blockStruct b =
          (BlockKind.memoryKind, b.name, b.content.map lineStruct, none) := by
        unfold blockStruct
        rw [hk]
        simp
      cases hm : runMemLines b.name dataCur b.content symtbl dataCur 0 upd with
      | error e => rw [hm] at h; exact absurd h (by simp)
      | ok q =>
        obtain ⟨ls', symtbl2, dataCur2, sz, upd1⟩ := q
        rw [hm] at h
        dsimp only at h
        cases hrest : runBlocks wop w1 w2 w3 rest symtbl2 codeCur dataCur2
            (upd1 || decide (sz ≠ b.size)) with
        | error e => rw [hrest] at h; exact absurd h (by simp)
        | ok q2 =>
          obtain ⟨rest', symtbl3, codeCur3, dataCur3, upd3⟩ := q2
          rw [hrest] at h
          dsimp only at h
          simp only [Except.ok.injEq, Prod.mk.injEq] at h
          obtain ⟨hbs, htbl, hcc, hdc, -⟩ := h
          subst htbl; subst hcc; subst hdc
          obtain ⟨hSm, hmapm⟩ := runMemLines_abs _ _ _ _ _ _ _ _ _ _ _ _ hm
          obtain ⟨hSr, hmapr⟩ := ih _ _ _ _ _ _ _ _ _ hrest
          constructor
          · rw [hbstruct, runBlocksS.eq_def]
            dsimp only
            rw [hSm]
            dsimp only
            rw [hSr]
            dsimp only
            rw [← hbs]
            rfl
          · rw [← hbs]
            simp only [List.map_cons, hmapr]
            have hout : blockStruct
                ⟨BlockKind.memoryKind, b.name, b.lineno, ls', some dataCur, sz⟩ =
                blockStruct b := by
              rw [hbstruct]
              unfold blockStruct
              simp [hmapm]
            rw [hout]
    | macroKind =>
      rw [hk] at h
      dsimp only at h
      have hbstruct : blockStruct b =
          (BlockKind.macroKind, b.name, b.content.map lineStruct,
            some (b.start_addr, b.size)) := by
        unfold blockStruct
        rw [hk]
        simp
      cases hrest : runBlocks wop w1 w2 w3 rest symtbl codeCur dataCur upd with
      | error e => rw [hrest] at h; exact absurd h (by simp)
      | ok q2 =>
        obtain ⟨rest', symtbl3, codeCur3, dataCur3, upd3⟩ := q2
        rw [hrest] at h
        dsimp only at h
        simp only [Except.ok.injEq, Prod.mk.injEq] at h
        obtain ⟨hbs, htbl, hcc, hdc, -⟩ := h
        subst htbl; subst hcc; subst hdc
        obtain ⟨hSr, hmapr⟩ := ih _ _ _ _ _ _ _ _ _ hrest
        constructor
        · rw [hbstruct, runBlocksS.eq_def]
          dsimp only
          rw [hSr]
          dsimp only
          rw [← hbs]
          rfl
        · rw [← hbs]
          simp only [List.map_cons, hmapr]

/-- Preservation of bound names between two symbol tables. -/
def tblLe (t t' : SymbolTable) : Prop :=
  (∀ n, (t.get_function_addr n).isSome = true → (t'.get_function_addr n).isSome = true) ∧
  (∀ n, (t.get_alias_addr n).isSome = true → (t'.get_alias_addr n).isSome = true)

theorem tblLe_refl (t : SymbolTable) : tblLe t t :=
  ⟨fun _ h => h, fun _ h => h⟩

theorem tblLe_trans {a b c : SymbolTable} (h1 : tblLe a b) (h2 : tblLe b c) :
    tblLe a c :=
  ⟨fun n h => h2.1 n (h1.1 n h), fun n h => h2.2 n (h1.2 n h)⟩

theorem define_alias_le {t t' : SymbolTable} {aname : Str} {addr : Option Nat}
    {ln : Nat} (h : t.define_alias aname addr ln = .ok t') : tblLe t t' := by
  unfold SymbolTable.define_alias at h
  cases hg : (lookupA t.alias_map aname).join with
  | some old =>
    rw [hg] at h
    dsimp only at h
    split_ifs at h with hcond
    simp only [Except.ok.injEq] at h
    rw [← h]
    exact tblLe_refl t
  | none =>
    rw [hg] at h
    dsimp only at h
    simp only [Except.ok.injEq] at h
    rw [← h]
    constructor
    · intro n hn
      exact hn
    · intro n hn
      unfold SymbolTable.get_alias_addr at hn ⊢
      dsimp only
      by_cases he : n = aname
      · subst he
        rw [hg] at hn
        simp at hn
      · rw [lookupA_updateAssoc_ne _ _ _ _ he]
        exact hn

theorem define_function_le {t t' : SymbolTable} {fname : Str} {a : Nat}
    (h : t.define_function fname (some a) = .ok t') : tblLe t t' := by
  unfold SymbolTable.define_function at h
  have hmap : t'.function_map = updateAssoc t.function_map fname (some a) ∧
      t'.alias_map = t.alias_map := by
    cases hg : (lookupA t.function_map fname).join with
    | some old =>
      rw [hg] at h
      dsimp only at h
      split_ifs at h with hcond
      simp only [Except.ok.injEq] at h
      rw [← h]
      exact ⟨rfl, rfl⟩
    | none =>
      rw [hg] at h
      dsimp only at h
      simp only [Except.ok.injEq] at h
      rw [← h]
      exact ⟨rfl, rfl⟩
  constructor
  · intro n hn
    unfold SymbolTable.get_function_addr at hn ⊢
    rw [hmap.1]
    by_cases he : n = fname
    · subst he
      rw [lookupA_updateAssoc_self]
      simp
    · rw [lookupA_updateAssoc_ne _ _ _ _ he]
      exact hn
  · intro n hn
    unfold SymbolTable.get_alias_addr at hn ⊢
    rw [hmap.2]
    exact hn

theorem define_alias_bound {t t' : SymbolTable} {aname : Str} {addr ln : Nat}
    (hu : t.get_alias_addr aname = none)
    (h : t.define_alias aname (some addr) ln = .ok t') :
    (t'.get_alias_addr aname).isSome = true := by
  unfold SymbolTable.define_alias at h
  unfold SymbolTable.get_alias_addr at hu
  rw [hu] at h
  dsimp only at h
  simp only [Except.ok.injEq] at h
  rw [← h]
  unfold SymbolTable.get_alias_addr
  dsimp only
  rw [lookupA_updateAssoc_self]
  simp

theorem define_function_bound {t t' : SymbolTable} {fname : Str} {a : Nat}
    (h : t.define_function fname (some a) = .ok t') :
    (t'.get_function_addr fname).isSome = true := by
  unfold SymbolTable.define_function at h
  have hmap : t'.function_map = updateAssoc t.function_map fname (some a) := by
    cases hg : (lookupA t.function_map fname).join with
    | some old =>
      rw [hg] at h
      dsimp only at h
      split_ifs at h with hcond
      simp only [Except.ok.injEq] at h
      rw [← h]
    | none =>
      rw [hg] at h
      dsimp only at h
      simp only [Except.ok.injEq] at h
      rw [← h]
  unfold SymbolTable.get_function_addr
  rw [hmap, lookupA_updateAssoc_self]
  simp

theorem runFuncLinesS_le (wop w1 w2 w3 startAddr : Nat) :
    ∀ ls tbl cur sz tbl' cur' sz',
      runFuncLinesS wop w1 w2 w3 startAddr ls tbl cur sz = .ok (tbl', cur', sz') →
      tblLe tbl tbl' := by
  intro ls
  induction ls with
  | nil =>
    intro tbl cur sz tbl' cur' sz' h
    simp only [runFuncLinesS, Except.ok.injEq, Prod.mk.injEq] at h
    rw [← h.1]
    exact tblLe_refl tbl
  | cons l rest ih =>
    obtain ⟨k, content, lineno⟩ := l
    intro tbl cur sz tbl' cur' sz' h
    cases k with
    | instruction =>
      rw [runFuncLinesS.eq_def] at h
      dsimp only at h
      cases hc : instrCore wop w1 w2 w3 tbl content with
      | error e => rw [hc] at h; exact absurd h (by simp)
      | ok r =>
        rw [hc] at h
        dsimp only at h
        exact ih _ _ _ _ _ _ h
    | aliasLine =>
      rw [runFuncLinesS.eq_def] at h
      dsimp only at h
      cases hg : tbl.get_alias_addr content with
      | none =>
        rw [hg] at h
        dsimp only at h
        cases hd : tbl.define_alias content (some (startAddr + lineno)) lineno with
        | error e => rw [hd] at h; exact absurd h (by simp)
        | ok t =>
          rw [hd] at h
          dsimp only at h
          exact tblLe_trans (define_alias_le hd) (ih _ _ _ _ _ _ h)
      | some a =>
        rw [hg] at h
        dsimp only at h
        exact ih _ _ _ _ _ _ h
    | macroLine =>
      rw [runFuncLinesS.eq_def] at h
      dsimp only at h
      exact ih _ _ _ _ _ _ h
    | memoryData =>
      rw [runFuncLinesS.eq_def] at h
      dsimp only at h
      exact ih _ _ _ _ _ _ h
    | funcDefine =>
      rw [runFuncLinesS.eq_def] at h
      dsimp only at h
      exact ih _ _ _ _ _ _ h

theorem runMemLinesS_le (startAddr : Nat) :
    ∀ ls tbl cur sz tbl' cur' sz',
      runMemLinesS startAddr ls tbl cur sz = .ok (tbl', cur', sz') →
      tblLe tbl tbl' := by
  intro ls
  induction ls with
  | nil =>
    intro tbl cur sz tbl' cur' sz' h
    simp only [runMemLinesS, Except.ok.injEq, Prod.mk.injEq] at h
    rw [← h.1]
    exact tblLe_refl tbl
  | cons l rest ih =>
    obtain ⟨k, content, lineno⟩ := l
    intro tbl cur sz tbl' cur' sz' h
    cases k with
    | memoryData =>
      rw [runMemLinesS.eq_def] at h
      dsimp only at h
      cases hc : parse_data_line content lineno tbl with
      | error e => rw [hc] at h; exact absurd h (by simp)
      | ok bits =>
        rw [hc] at h
        dsimp only at h
        exact ih _ _ _ _ _ _ h
    | aliasLine =>
      rw [runMemLinesS.eq_def] at h
      dsimp only at h
      cases hg : tbl.get_alias_addr content with
      | none =>
        rw [hg] at h
        dsimp only at h
        cases hd : tbl.define_alias content (some (startAddr + lineno)) lineno with
        | error e => rw [hd] at h; exact absurd h (by simp)
        | ok t =>
          rw [hd] at h
          dsimp only at h
          exact tblLe_trans (define_alias_le hd) (ih _ _ _ _ _ _ h)
      | some a =>
        rw [hg] at h
        dsimp only at h
        exact ih _ _ _ _ _ _ h
    | macroLine =>
      rw [runMemLinesS.eq_def] at h
      dsimp only at h
      exact ih _ _ _ _ _ _ h
    | instruction =>
      rw [runMemLinesS.eq_def] at h
      dsimp only at h
      exact ih _ _ _ _ _ _ h
    | funcDefine =>
      rw [runMemLinesS.eq_def] at h
      dsimp only at h
      exact ih _ _ _ _ _ _ h

theorem runFuncLinesS_sat (wop w1 w2 w3 startAddr : Nat) :
    ∀ ls tbl cur sz tbl' cur' sz',
      runFuncLinesS wop w1 w2 w3 startAddr ls tbl cur sz = .ok (tbl', cur', sz') →
      ∀ l ∈ ls, l.1 = IRKind.aliasLine → (tbl'.get_alias_addr l.2.1).isSome = true := by
  intro ls
  induction ls with
  | nil =>
    intro tbl cur sz tbl' cur' sz' h l hl
    simp at hl
  | cons l0 rest ih =>
    obtain ⟨k, content, lineno⟩ := l0
    intro tbl cur sz tbl' cur' sz' h l hl hk
    rcases List.mem_cons.mp hl with rfl | hmem
    · dsimp only at hk
      subst hk
      rw [runFuncLinesS.eq_def] at h
      dsimp only at h
      cases hg : tbl.get_alias_addr content with
      | none =>
        rw [hg] at h
        dsimp only at h
        cases hd : tbl.define_alias content (some (startAddr + lineno)) lineno with
        | error e => rw [hd] at h; exact absurd h (by simp)
        | ok t =>
          rw [hd] at h
          dsimp only at h
          exact (runFuncLinesS_le wop w1 w2 w3 startAddr _ _ _ _ _ _ _ h).2 _
            (define_alias_bound hg hd)
      | some a =>
        rw [hg] at h
        dsimp only at h
        refine (runFuncLinesS_le wop w1 w2 w3 startAddr _ _ _ _ _ _ _ h).2 _ ?_
        rw [hg]
        rfl
    · cases k with
      | instruction =>
        rw [runFuncLinesS.eq_def] at h
        dsimp only at h
        cases hc : instrCore wop w1 w2 w3 tbl content with
        | error e => rw [hc] at h; exact absurd h (by simp)
        | ok r =>
          rw [hc] at h
          dsimp only at h
          exact ih _ _ _ _ _ _ h l hmem hk
      | aliasLine =>
        rw [runFuncLinesS.eq_def] at h
        dsimp only at h
        cases hg : tbl.get_alias_addr content with
        | none =>
          rw [hg] at h
          dsimp only at h
          cases hd : tbl.define_alias content (some (startAddr + lineno)) lineno with
          | error e => rw [hd] at h; exact absurd h (by simp)
          | ok t =>
            rw [hd] at h
            dsimp only at h
            exact ih _ _ _ _ _ _ h l hmem hk
        | some a =>
          rw [hg] at h
          dsimp only at h
          exact ih _ _ _ _ _ _ h l hmem hk
      | macroLine =>
        rw [runFuncLinesS.eq_def] at h
        dsimp only at h
        exact ih _ _ _ _ _ _ h l hmem hk
      | memoryData =>
        rw [runFuncLinesS.eq_def] at h
        dsimp only at h
        exact ih _ _ _ _ _ _ h l hmem hk
      | funcDefine =>
        rw [runFuncLinesS.eq_def] at h
        dsimp only at h
        exact ih _ _ _ _ _ _ h l hmem hk

theorem runMemLinesS_sat (startAddr : Nat) :
    ∀ ls tbl cur sz tbl' cur' sz',
      runMemLinesS startAddr ls tbl cur sz = .ok (tbl', cur', sz') →
      ∀ l ∈ ls, l.1 = IRKind.aliasLine → (tbl'.get_alias_addr l.2.1).isSome = true := by
  intro ls
  induction ls with
  | nil =>
    intro tbl cur sz tbl' cur' sz' h l hl
    simp at hl
  | cons l0 rest ih =>
    obtain ⟨k, content, lineno⟩ := l0
    intro tbl cur sz tbl' cur' sz' h l hl hk
    rcases List.mem_cons.mp hl with rfl | hmem
    · dsimp only at hk
      subst hk
      rw [runMemLinesS.eq_def] at h
      dsimp only at h
      cases hg : tbl.get_alias_addr content with
      | none =>
        rw [hg] at h
        dsimp only at h
        cases hd : tbl.define_alias content (some (startAddr + lineno)) lineno with
        | error e => rw [hd] at h; exact absurd h (by simp)
        | ok t =>
          rw [hd] at h
          dsimp only at h
          exact (runMemLinesS_le startAddr _ _ _ _ _ _ _ h).2 _
            (define_alias_bound hg hd)
      | some a =>
        rw [hg] at h
        dsimp only at h
        refine (runMemLinesS_le startAddr _ _ _ _ _ _ _ h).2 _ ?_
        rw [hg]
        rfl
    · cases k with
      | memoryData =>
        rw [runMemLinesS.eq_def] at h
        dsimp only at h
        cases hc : parse_data_line content lineno tbl with
        | error e => rw [hc] at h; exact absurd h (by simp)
        | ok bits =>
          rw [hc] at h
          dsimp only at h
          exact ih _ _ _ _ _ _ h l hmem hk
      | aliasLine =>
        rw [runMemLinesS.eq_def] at h
        dsimp only at h
        cases hg : tbl.get_alias_addr content with
        | none =>
          rw [hg] at h
          dsimp only at h
          cases hd : tbl.define_alias content (some (startAddr + lineno)) lineno with
          | error e => rw [hd] at h; exact absurd h (by simp)
          | ok t =>
            rw [hd] at h
            dsimp only at h
            exact ih _ _ _ _ _ _ h l hmem hk
        | some a =>
          rw [hg] at h
          dsimp only at h
          exact ih _ _ _ _ _ _ h l hmem hk
      | macroLine =>
        rw [runMemLinesS.eq_def] at h
        dsimp only at h
        exact ih _ _ _ _ _ _ h l hmem hk
      | instruction =>
        rw [runMemLinesS.eq_def] at h
        dsimp only at h
        exact ih _ _ _ _ _ _ h l hmem hk
      | funcDefine =>
        rw [runMemLinesS.eq_def] at h
        dsimp only at h
        exact ih _ _ _ _ _ _ h l hmem hk

theorem runFuncLinesS_stable (wop w1 w2 w3 startAddr : Nat) :
    ∀ ls tbl cur sz tbl' cur' sz',
      (∀ l ∈ ls, l.1 = IRKind.aliasLine → (tbl.get_alias_addr l.2.1).isSome = true) →
      runFuncLinesS wop w1 w2 w3 startAddr ls tbl cur sz = .ok (tbl', cur', sz') →
      tbl' = tbl := by
  intro ls
  induction ls with
  | nil =>
    intro tbl cur sz tbl' cur' sz' hsat h
    simp only [runFuncLinesS, Except.ok.injEq, Prod.mk.injEq] at h
    exact h.1.symm
  | cons l0 rest ih =>
    obtain ⟨k, content, lineno⟩ := l0
    intro tbl cur sz tbl' cur' sz' hsat h
    have hrest : ∀ l ∈ rest, l.1 = IRKind.aliasLine →
        (tbl.get_alias_addr l.2.1).isSome = true :=
      fun l hl => hsat l (List.mem_cons_of_mem _ hl)
    cases k with
    | instruction =>
      rw [runFuncLinesS.eq_def] at h
      dsimp only at h
      cases hc : instrCore wop w1 w2 w3 tbl content with
      | error e => rw [hc] at h; exact absurd h (by simp)
      | ok r =>
        rw [hc] at h
        dsimp only at h
        exact ih _ _ _ _ _ _ hrest h
    | aliasLine =>
      rw [runFuncLinesS.eq_def] at h
      dsimp only at h
      have hb : (tbl.get_alias_addr content).isSome = true :=
        hsat _ (List.mem_cons_self _ _) rfl
      cases hg : tbl.get_alias_addr content with
      | none => rw [hg] at hb; exact absurd hb (by simp)
      | some a =>
        rw [hg] at h
        dsimp only at h
        exact ih _ _ _ _ _ _ hrest h
    | macroLine =>
      rw [runFuncLinesS.eq_def] at h
      dsimp only at h
      exact ih _ _ _ _ _ _ hrest h
    | memoryData =>
      rw [runFuncLinesS.eq_def] at h
      dsimp only at h
      exact ih _ _ _ _ _ _ hrest h
    | funcDefine =>
      rw [runFuncLinesS.eq_def] at h
      dsimp only at h
      exact ih _ _ _ _ _ _ hrest h

theorem runMemLinesS_stable (startAddr : Nat) :
    ∀ ls tbl cur sz tbl' cur' sz',
      (∀ l ∈ ls, l.1 = IRKind.aliasLine → (tbl.get_alias_addr l.2.1).isSome = true) →
      runMemLinesS startAddr ls tbl cur sz = .ok (tbl', cur', sz') →
      tbl' = tbl := by
  intro ls
  induction ls with
  | nil =>
    intro tbl cur sz tbl' cur' sz' hsat h
    simp only [runMemLinesS, Except.ok.injEq, Prod.mk.injEq] at h
    exact h.1.symm
  | cons l0 rest ih =>
    obtain ⟨k, content, lineno⟩ := l0
    intro tbl cur sz tbl' cur' sz' hsat h
    have hrest : ∀ l ∈ rest, l.1 = IRKind.aliasLine →
        (tbl.get_alias_addr l.2.1).isSome = true :=
      fun l hl => hsat l (List.mem_cons_of_mem _ hl)
    cases k with
    | memoryData =>
      rw [runMemLinesS.eq_def] at h
      dsimp only at h
      cases hc : parse_data_line content lineno tbl with
      | error e => rw [hc] at h; exact absurd h (by simp)
      | ok bits =>
        rw [hc] at h
        dsimp only at h
        exact ih _ _ _ _ _ _ hrest h
    | aliasLine =>
      rw [runMemLinesS.eq_def] at h
      dsimp only at h
      have hb : (tbl.get_alias_addr content).isSome = true :=
        hsat _ (List.mem_cons_self _ _) rfl
      cases hg : tbl.get_alias_addr content with
      | none => rw [hg] at hb; exact absurd hb (by simp)
      | some a =>
        rw [hg] at h
        dsimp only at h
        exact ih _ _ _ _ _ _ hrest h
    | macroLine =>
      rw [runMemLinesS.eq_def] at h
      dsimp only at h
      exact ih _ _ _ _ _ _ hrest h
    | instruction =>
      rw [runMemLinesS.eq_def] at h
      dsimp only at h
      exact ih _ _ _ _ _ _ hrest h
    | funcDefine =>
      rw [runMemLinesS.eq_def] at h
      dsimp only at h
      exact ih _ _ _ _ _ _ hrest h

theorem runBlocksS_le (wop w1 w2 w3 : Nat) :
    ∀ bs tbl cc dc tbl' cc' dc' sn,
      runBlocksS wop w1 w2 w3 bs tbl cc dc = .ok (tbl', cc', dc', sn) →
      tblLe tbl tbl' := by
  intro bs
  induction bs with
  | nil =>
    intro tbl cc dc tbl' cc' dc' sn h
    simp only [runBlocksS, Except.ok.injEq, Prod.mk.injEq] at h
    rw [← h.1]
    exact tblLe_refl tbl
  | cons b rest ih =>
    obtain ⟨kind, name, lines, msnap⟩ := b
    intro tbl cc dc tbl' cc' dc' sn h
    cases kind with
    | functionKind =>
      rw [runBlocksS.eq_def] at h
      dsimp only at h
      cases hg : tbl.get_function_addr name with
      | none =>
        rw [hg] at h
        dsimp only at h
        cases hd : tbl.define_function name (some cc) with
        | error e => rw [hd] at h; exact absurd h (by simp [Except.map])
        | ok t =>
          rw [hd] at h
          dsimp only [Except.map] at h
          cases hr : runFuncLinesS wop w1 w2 w3 cc lines t cc 0 with
          | error e => rw [hr] at h; exact absurd h (by simp)
          | ok p =>
            obtain ⟨t2, cc2, sz⟩ := p
            rw [hr] at h
            dsimp only at h
            cases hb : runBlocksS wop w1 w2 w3 rest t2 cc2 dc with
            | error e => rw [hb] at h; exact absurd h (by simp)
            | ok q =>
              obtain ⟨t3, cc3, dc3, snaps⟩ := q
              rw [hb] at h
              dsimp only at h
              simp only [Except.ok.injEq, Prod.mk.injEq] at h
              obtain ⟨h1, -⟩ := h
              exact h1 ▸ tblLe_trans (define_function_le hd)
                (tblLe_trans (runFuncLinesS_le wop w1 w2 w3 cc _ _ _ _ _ _ _ hr)
                  (ih _ _ _ _ _ _ _ hb))
      | some a =>
        rw [hg] at h
        dsimp only at h
        cases hr : runFuncLinesS wop w1 w2 w3 a lines tbl cc 0 with
        | error e => rw [hr] at h; exact absurd h (by simp)
        | ok p =>
          obtain ⟨t2, cc2, sz⟩ := p
          rw [hr] at h
          dsimp only at h
          cases hb : runBlocksS wop w1 w2 w3 rest t2 cc2 dc with
          | error e => rw [hb] at h; exact absurd h (by simp)
          | ok q =>
            obtain ⟨t3, cc3, dc3, snaps⟩ := q
            rw [hb] at h
            dsimp only at h
            simp only [Except.ok.injEq, Prod.mk.injEq] at h
            obtain ⟨h1, -⟩ := h
            exact h1 ▸ tblLe_trans (runFuncLinesS_le wop w1 w2 w3 a _ _ _ _ _ _ _ hr)
              (ih _ _ _ _ _ _ _ hb)
    | memoryKind =>
      rw [runBlocksS.eq_def] at h
      dsimp only at h
      cases hr : runMemLinesS dc lines tbl dc 0 with
      | error e => rw [hr] at h; exact absurd h (by simp)
      | ok p =>
        obtain ⟨t2, dc2, sz⟩ := p
        rw [hr] at h
        dsimp only at h
        cases hb : runBlocksS wop w1 w2 w3 rest t2 cc dc2 with
        | error e => rw [hb] at h; exact absurd h (by simp)
        | ok q =>
          obtain ⟨t3, cc3, dc3, snaps⟩ := q
          rw [hb] at h
          dsimp only at h
          simp only [Except.ok.injEq, Prod.mk.injEq] at h
          obtain ⟨h1, -⟩ := h
          exact h1 ▸ tblLe_trans (runMemLinesS_le dc _ _ _ _ _ _ _ hr)
            (ih _ _ _ _ _ _ _ hb)
    | macroKind =>
      rw [runBlocksS.eq_def] at h
      dsimp only at h
      cases hb : runBlocksS wop w1 w2 w3 rest tbl cc dc with
      | error e => rw [hb] at h; exact absurd h (by simp)
      | ok q =>
        obtain ⟨t3, cc3, dc3, snaps⟩ := q
        rw [hb] at h
        dsimp only at h
        simp only [Except.ok.injEq, Prod.mk.injEq] at h
        obtain ⟨h1, -⟩ := h
        exact h1 ▸ ih _ _ _ _ _ _ _ hb

theorem runBlocksS_satF (wop w1 w2 w3 : Nat) :
    ∀ bs tbl cc dc tbl' cc' dc' sn,
      runBlocksS wop w1 w2 w3 bs tbl cc dc = .ok (tbl', cc', dc', sn) →
      ∀ b ∈ bs, b.1 = BlockKind.functionKind →
        (tbl'.get_function_addr b.2.1).isSome = true := by
  intro bs
  induction bs with
  | nil =>
    intro tbl cc dc tbl' cc' dc' sn h b hb
    simp at hb
  | cons b0 rest ih =>
    obtain ⟨kind, name, lines, msnap⟩ := b0
    intro tbl cc dc tbl' cc' dc' sn h b hb hk
    rcases List.mem_cons.mp hb with rfl | hmem
    · dsimp only at hk
      subst hk
      rw [runBlocksS.eq_def] at h
      dsimp only at h
      cases hg : tbl.get_function_addr name with
      | none =>
        rw [hg] at h
        dsimp only at h
        cases hd : tbl.define_function name (some cc) with
        | error e => rw [hd] at h; exact absurd h (by simp [Except.map])
        | ok t =>
          rw [hd] at h
          dsimp only [Except.map] at h
          cases hr : runFuncLinesS wop w1 w2 w3 cc lines t cc 0 with
          | error e => rw [hr] at h; exact absurd h (by simp)
          | ok p =>
            obtain ⟨t2, cc2, sz⟩ := p
            rw [hr] at h
            dsimp only at h
            cases hbk : runBlocksS wop w1 w2 w3 rest t2 cc2 dc with
            | error e => rw [hbk] at h; exact absurd h (by simp)
            | ok q =>
              obtain ⟨t3, cc3, dc3, snaps⟩ := q
              rw [hbk] at h
              dsimp only at h
              simp only [Except.ok.injEq, Prod.mk.injEq] at h
              obtain ⟨h1, -⟩ := h
              exact h1 ▸ (runBlocksS_le wop w1 w2 w3 _ _ _ _ _ _ _ _ hbk).1 _
                ((runFuncLinesS_le wop w1 w2 w3 cc _ _ _ _ _ _ _ hr).1 _
                  (define_function_bound hd))
      | some a =>
        rw [hg] at h
        dsimp only at h
        cases hr : runFuncLinesS wop w1 w2 w3 a lines tbl cc 0 with
        | error e => rw [hr] at h; exact absurd h (by simp)
        | ok p =>
          obtain ⟨t2, cc2, sz⟩ := p
          rw [hr] at h
          dsimp only at h
          cases hbk : runBlocksS wop w1 w2 w3 rest t2 cc2 dc with
          | error e => rw [hbk] at h; exact absurd h (by simp)
          | ok q =>
            obtain ⟨t3, cc3, dc3, snaps⟩ := q
            rw [hbk] at h
            dsimp only at h
            simp only [Except.ok.injEq, Prod.mk.injEq] at h
            obtain ⟨h1, -⟩ := h
            refine h1 ▸ (runBlocksS_le wop w1 w2 w3 _ _ _ _ _ _ _ _ hbk).1 _
              ((runFuncLinesS_le wop w1 w2 w3 a _ _ _ _ _ _ _ hr).1 _ ?_)
            rw [hg]
            rfl
    · cases kind with
      | functionKind =>
        rw [runBlocksS.eq_def] at h
        dsimp only at h
        cases hg : tbl.get_function_addr name with
        | none =>
          rw [hg] at h
          dsimp only at h
          cases hd : tbl.define_function name (some cc) with
          | error e => rw [hd] at h; exact absurd h (by simp [Except.map])
          | ok t =>
            rw [hd] at h
            dsimp only [Except.map] at h
            cases hr : runFuncLinesS wop w1 w2 w3 cc lines t cc 0 with
            | error e => rw [hr] at h; exact absurd h (by simp)
            | ok p =>
              obtain ⟨t2, cc2, sz⟩ := p
              rw [hr] at h
              dsimp only at h
              cases hbk : runBlocksS wop w1 w2 w3 rest t2 cc2 dc with
              | error e => rw [hbk] at h; exact absurd h (by simp)
              | ok q =>
                obtain ⟨t3, cc3, dc3, snaps⟩ := q
                rw [hbk] at h
                dsimp only at h
                simp only [Except.ok.injEq, Prod.mk.injEq] at h
                obtain ⟨h1, -⟩ := h
                exact h1 ▸ ih _ _ _ _ _ _ _ hbk b hmem hk
        | some a =>
          rw [hg] at h
          dsimp only at h
          cases hr : runFuncLinesS wop w1 w2 w3 a lines tbl cc 0 with
          | error e => rw [hr] at h; exact absurd h (by simp)
          | ok p =>
            obtain ⟨t2, cc2, sz⟩ := p
            rw [hr] at h
            dsimp only at h
            cases hbk : runBlocksS wop w1 w2 w3 rest t2 cc2 dc with
            | error e => rw [hbk] at h; exact absurd h (by simp)
            | ok q =>
              obtain ⟨t3, cc3, dc3, snaps⟩ := q
              rw [hbk] at h
              dsimp only at h
              simp only [Except.ok.injEq, Prod.mk.injEq] at h
              obtain ⟨h1, -⟩ := h
              exact h1 ▸ ih _ _ _ _ _ _ _ hbk b hmem hk
      | memoryKind =>
        rw [runBlocksS.eq_def] at h
        dsimp only at h
        cases hr : runMemLinesS dc lines tbl dc 0 with
        | error e => rw [hr] at h; exact absurd h (by simp)
        | ok p =>
          obtain ⟨t2, dc2, sz⟩ := p
          rw [hr] at h
          dsimp only at h
          cases hbk : runBlocksS wop w1 w2 w3 rest t2 cc dc2 with
          | error e => rw [hbk] at h; exact absurd h (by simp)
          | ok q =>
            obtain ⟨t3, cc3, dc3, snaps⟩ := q
            rw [hbk] at h
            dsimp only at h
            simp only [Except.ok.injEq, Prod.mk.injEq] at h
            obtain ⟨h1, -⟩ := h
            exact h1 ▸ ih _ _ _ _ _ _ _ hbk b hmem hk
      | macroKind =>
        rw [runBlocksS.eq_def] at h
        dsimp only at h
        cases hbk : runBlocksS wop w1 w2 w3 rest tbl cc dc with
        | error e => rw [hbk] at h; exact absurd h (by simp)
        | ok q =>
          obtain ⟨t3, cc3, dc3, snaps⟩ := q
          rw [hbk] at h
          dsimp only at h
          simp only [Except.ok.injEq, Prod.mk.injEq] at h
          obtain ⟨h1, -⟩ := h
          exact h1 ▸ ih _ _ _ _ _ _ _ hbk b hmem hk

theorem runBlocksS_satA (wop w1 w2 w3 : Nat) :
    ∀ bs tbl cc dc tbl' cc' dc' sn,
      runBlocksS wop w1 w2 w3 bs tbl cc dc = .ok (tbl', cc', dc', sn) →
      ∀ b ∈ bs, b.1 ≠ BlockKind.macroKind →
        ∀ l ∈ b.2.2.1, l.1 = IRKind.aliasLine →
          (tbl'.get_alias_addr l.2.1).isSome = true := by
  intro bs
  induction bs with
  | nil =>
    intro tbl cc dc tbl' cc' dc' sn h b hb
    simp at hb
  | cons b0 rest ih =>
    obtain ⟨kind, name, lines, msnap⟩ := b0
    intro tbl cc dc tbl' cc' dc' sn h b hb hk l hl hal
    rcases List.mem_cons.mp hb with rfl | hmem
    · dsimp only at hk hl
      cases kind with
      | macroKind => exact absurd rfl hk
      | functionKind =>
        rw [runBlocksS.eq_def] at h
        dsimp only at h
        cases hg : tbl.get_function_addr name with
        | none =>
          rw [hg] at h
          dsimp only at h
          cases hd : tbl.define_function name (some cc) with
          | error e => rw [hd] at h; exact absurd h (by simp [Except.map])
          | ok t =>
            rw [hd] at h
            dsimp only [Except.map] at h
            cases hr : runFuncLinesS wop w1 w2 w3 cc lines t cc 0 with
            | error e => rw [hr] at h; exact absurd h (by simp)
            | ok p =>
              obtain ⟨t2, cc2, sz⟩ := p
              rw [hr] at h
              dsimp only at h
              cases hbk : runBlocksS wop w1 w2 w3 rest t2 cc2 dc with
              | error e => rw [hbk] at h; exact absurd h (by simp)
              | ok q =>
                obtain ⟨t3, cc3, dc3, snaps⟩ := q
                rw [hbk] at h
                dsimp only at h
                simp only [Except.ok.injEq, Prod.mk.injEq] at h
                obtain ⟨h1, -⟩ := h
                exact h1 ▸ (runBlocksS_le wop w1 w2 w3 _ _ _ _ _ _ _ _ hbk).2 _
                  (runFuncLinesS_sat wop w1 w2 w3 cc _ _ _ _ _ _ _ hr l hl hal)
        | some a =>
          rw [hg] at h
          dsimp only at h
          cases hr : runFuncLinesS wop w1 w2 w3 a lines tbl cc 0 with
          | error e => rw [hr] at h; exact absurd h (by simp)
          | ok p =>
            obtain ⟨t2, cc2, sz⟩ := p
            rw [hr] at h
            dsimp only at h
            cases hbk : runBlocksS wop w1 w2 w3 rest t2 cc2 dc with
            | error e => rw [hbk] at h; exact absurd h (by simp)
            | ok q =>
              obtain ⟨t3, cc3, dc3, snaps⟩ := q
              rw [hbk] at h
              dsimp only at h
              simp only [Except.ok.injEq, Prod.mk.injEq] at h
              obtain ⟨h1, -⟩ := h
              exact h1 ▸ (runBlocksS_le wop w1 w2 w3 _ _ _ _ _ _ _ _ hbk).2 _
                (runFuncLinesS_sat wop w1 w2 w3 a _ _ _ _ _ _ _ hr l hl hal)
      | memoryKind =>
        rw [runBlocksS.eq_def] at h
        dsimp only at h
        cases hr : runMemLinesS dc lines tbl dc 0 with
        | error e => rw [hr] at h; exact absurd h (by simp)
        | ok p =>
          obtain ⟨t2, dc2, sz⟩ := p
          rw [hr] at h
          dsimp only at h
          cases hbk : runBlocksS wop w1 w2 w3 rest t2 cc dc2 with
          | error e => rw [hbk] at h; exact absurd h (by simp)
          | ok q =>
            obtain ⟨t3, cc3, dc3, snaps⟩ := q
            rw [hbk] at h
            dsimp only at h
            simp only [Except.ok.injEq, Prod.mk.injEq] at h
            obtain ⟨h1, -⟩ := h
            exact h1 ▸ (runBlocksS_le wop w1 w2 w3 _ _ _ _ _ _ _ _ hbk).2 _
              (runMemLinesS_sat dc _ _ _ _ _ _ _ hr l hl hal)
    · cases kind with
      | functionKind =>
        rw [runBlocksS.eq_def] at h
        dsimp only at h
        cases hg : tbl.get_function_addr name with
        | none =>
          rw [hg] at h
          dsimp only at h
          cases hd : tbl.define_function name (some cc) with
          | error e => rw [hd] at h; exact absurd h (by simp [Except.map])
          | ok t =>
            rw [hd] at h
            dsimp only [Except.map] at h
            cases hr : runFuncLinesS wop w1 w2 w3 cc lines t cc 0 with
            | error e => rw [hr] at h; exact absurd h (by simp)
            | ok p =>
              obtain ⟨t2, cc2, sz⟩ := p
              rw [hr] at h
              dsimp only at h
              cases hbk : runBlocksS wop w1 w2 w3 rest t2 cc2 dc with
              | error e => rw [hbk] at h; exact absurd h (by simp)
              | ok q =>
                obtain ⟨t3, cc3, dc3, snaps⟩ := q
                rw [hbk] at h
                dsimp only at h
                simp only [Except.ok.injEq, Prod.mk.injEq] at h
                obtain ⟨h1, -⟩ := h
                exact h1 ▸ ih _ _ _ _ _ _ _ hbk b hmem hk l hl hal
        | some a =>
          rw [hg] at h
          dsimp only at h
          cases hr : runFuncLinesS wop w1 w2 w3 a lines tbl cc 0 with
          | error e => rw [hr] at h; exact absurd h (by simp)
          | ok p =>
            obtain ⟨t2, cc2, sz⟩ := p
            rw [hr] at h
            dsimp only at h
            cases hbk : runBlocksS wop w1 w2 w3 rest t2 cc2 dc with
            | error e => rw [hbk] at h; exact absurd h (by simp)
            | ok q =>
              obtain ⟨t3, cc3, dc3, snaps⟩ := q
              rw [hbk] at h
              dsimp only at h
              simp only [Except.ok.injEq, Prod.mk.injEq] at h
              obtain ⟨h1, -⟩ := h
              exact h1 ▸ ih _ _ _ _ _ _ _ hbk b hmem hk l hl hal
      | memoryKind =>
        rw [runBlocksS.eq_def] at h
        dsimp only at h
        cases hr : runMemLinesS dc lines tbl dc 0 with
        | error e => rw [hr] at h; exact absurd h (by simp)
        | ok p =>
          obtain ⟨t2, dc2, sz⟩ := p
          rw [hr] at h
          dsimp only at h
          cases hbk : runBlocksS wop w1 w2 w3 rest t2 cc dc2 with
          | error e => rw [hbk] at h; exact absurd h (by simp)
          | ok q =>
            obtain ⟨t3, cc3, dc3, snaps⟩ := q
            rw [hbk] at h
            dsimp only at h
            simp only [Except.ok.injEq, Prod.mk.injEq] at h
            obtain ⟨h1, -⟩ := h
            exact h1 ▸ ih _ _ _ _ _ _ _ hbk b hmem hk l hl hal
      | macroKind =>
        rw [runBlocksS.eq_def] at h
        dsimp only at h
        cases hbk : runBlocksS wop w1 w2 w3 rest tbl cc dc with
        | error e => rw [hbk] at h; exact absurd h (by simp)
        | ok q =>
          obtain ⟨t3, cc3, dc3, snaps⟩ := q
          rw [hbk] at h
          dsimp only at h
          simp only [Except.ok.injEq, Prod.mk.injEq] at h
          obtain ⟨h1, -⟩ := h
          exact h1 ▸ ih _ _ _ _ _ _ _ hbk b hmem hk l hl hal

theorem runBlocksS_stable (wop w1 w2 w3 : Nat) :
    ∀ bs tbl cc dc tbl' cc' dc' sn,
      (∀ b ∈ bs, b.1 = BlockKind.functionKind →
        (tbl.get_function_addr b.2.1).isSome = true) →
      (∀ b ∈ bs, b.1 ≠ BlockKind.macroKind →
        ∀ l ∈ b.2.2.1, l.1 = IRKind.aliasLine →
          (tbl.get_alias_addr l.2.1).isSome = true) →
      runBlocksS wop w1 w2 w3 bs tbl cc dc = .ok (tbl', cc', dc', sn) →
      tbl' = tbl := by
  intro bs
  induction bs with
  | nil =>
    intro tbl cc dc tbl' cc' dc' sn hsatF hsatA h
    simp only [runBlocksS, Except.ok.injEq, Prod.mk.injEq] at h
    exact h.1.symm
  | cons b0 rest ih =>
    obtain ⟨kind, name, lines, msnap⟩ := b0
    intro tbl cc dc tbl' cc' dc' sn hsatF hsatA h
    have hsatF' : ∀ b ∈ rest, b.1 = BlockKind.functionKind →
        (tbl.get_function_addr b.2.1).isSome = true :=
      fun b hb => hsatF b (List.mem_cons_of_mem _ hb)
    have hsatA' : ∀ b ∈ rest, b.1 ≠ BlockKind.macroKind →
        ∀ l ∈ b.2.2.1, l.1 = IRKind.aliasLine →
          (tbl.get_alias_addr l.2.1).isSome = true :=
      fun b hb => hsatA b (List.mem_cons_of_mem _ hb)
    cases kind with
    | functionKind =>
      rw [runBlocksS.eq_def] at h
      dsimp only at h
      have hbf : (tbl.get_function_addr name).isSome = true :=
        hsatF _ (List.mem_cons_self _ _) rfl
      cases hg : tbl.get_function_addr name with
      | none => rw [hg] at hbf; exact absurd hbf (by simp)
      | some a =>
        rw [hg] at h
        dsimp only at h
        cases hr : runFuncLinesS wop w1 w2 w3 a lines tbl cc 0 with
        | error e => rw [hr] at h; exact absurd h (by simp)
        | ok p =>
          obtain ⟨t2, cc2, sz⟩ := p
          have ht2 : t2 = tbl :=
            runFuncLinesS_stable wop w1 w2 w3 a _ _ _ _ _ _ _
              (fun l hl hal => hsatA _ (List.mem_cons_self _ _)
                (fun hc => BlockKind.noConfusion hc) l hl hal) hr
          rw [hr] at h
          dsimp only at h
          cases hbk : runBlocksS wop w1 w2 w3 rest t2 cc2 dc with
          | error e => rw [hbk] at h; exact absurd h (by simp)
          | ok q =>
            obtain ⟨t3, cc3, dc3, snaps⟩ := q
            rw [hbk] at h
            dsimp only at h
            simp only [Except.ok.injEq, Prod.mk.injEq] at h
            obtain ⟨h1, -⟩ := h
            rw [ht2] at hbk
            rw [← h1]
            exact ih _ _ _ _ _ _ _ hsatF' hsatA' hbk
    | memoryKind =>
      rw [runBlocksS.eq_def] at h
      dsimp only at h
      cases hr : runMemLinesS dc lines tbl dc 0 with
      | error e => rw [hr] at h; exact absurd h (by simp)
      | ok p =>
        obtain ⟨t2, dc2, sz⟩ := p
        have ht2 : t2 = tbl :=
          runMemLinesS_stable dc _ _ _ _ _ _ _
            (fun l hl hal => hsatA _ (List.mem_cons_self _ _)
              (fun hc => BlockKind.noConfusion hc) l hl hal) hr
        rw [hr] at h
        dsimp only at h
        cases hbk : runBlocksS wop w1 w2 w3 rest t2 cc dc2 with
        | error e => rw [hbk] at h; exact absurd h (by simp)
        | ok q =>
          obtain ⟨t3, cc3, dc3, snaps⟩ := q
          rw [hbk] at h
          dsimp only at h
          simp only [Except.ok.injEq, Prod.mk.injEq] at h
          obtain ⟨h1, -⟩ := h
          rw [ht2] at hbk
          rw [← h1]
          exact ih _ _ _ _ _ _ _ hsatF' hsatA' hbk
    | macroKind =>
      rw [runBlocksS.eq_def] at h
      dsimp only at h
      cases hbk : runBlocksS wop w1 w2 w3 rest tbl cc dc with
      | error e => rw [hbk] at h; exact absurd h (by simp)
      | ok q =>
        obtain ⟨t3, cc3, dc3, snaps⟩ := q
        rw [hbk] at h
        dsimp only at h
        simp only [Except.ok.injEq, Prod.mk.injEq] at h
        obtain ⟨h1, -⟩ := h
        rw [← h1]
        exact ih _ _ _ _ _ _ _ hsatF' hsatA' hbk

theorem resolve_symbols_inv {bs : List Block} {tbl : SymbolTable}
    {cs ds wop w1 w2 w3 : Nat} {bs' : List Block} {tbl' : SymbolTable} {u : Bool}
    (h : resolve_symbols bs tbl cs ds wop w1 w2 w3 = .ok (bs', tbl', u)) :
    ∃ cc dc, runBlocks wop w1 w2 w3 bs tbl cs ds false = .ok (bs', tbl', cc, dc, u) := by
  unfold resolve_symbols at h
  cases hr : runBlocks wop w1 w2 w3 bs tbl cs ds false with
  | error e => rw [hr] at h; exact absurd h (by simp [Except.map])
  | ok r =>
    obtain ⟨a, t, c, d, v⟩ := r
    rw [hr] at h
    simp only [Except.map, Except.ok.injEq, Prod.mk.injEq] at h
    obtain ⟨ha, ht, hv⟩ := h
    exact ⟨c, d, by rw [ha, ht, hv]⟩

/-- C2: layout fixed point. If two consecutive passes of `resolve_symbols`
(with the same section bases and field widths) have produced identical
per-block `(start_addr, size)` snapshots, then one further pass again
produces that identical snapshot. -/
theorem c2_layout_fixed_point
    (wop w1 w2 w3 cs ds : Nat) (bs0 bs1 bs2 bs3 : List Block)
    (tbl0 tbl1 tbl2 tbl3 : SymbolTable) (u1 u2 u3 : Bool)
    (h1 : resolve_symbols bs0 tbl0 cs ds wop w1 w2 w3 = .ok (bs1, tbl1, u1))
    (h2 : resolve_symbols bs1 tbl1 cs ds wop w1 w2 w3 = .ok (bs2, tbl2, u2))
    (hsnap : snapshot bs1 = snapshot bs2)
    (h3 : resolve_symbols bs2 tbl2 cs ds wop w1 w2 w3 = .ok (bs3, tbl3, u3)) :
    snapshot bs3 = snapshot bs2 := by
  obtain ⟨cc1, dc1, hr1⟩ := resolve_symbols_inv h1
  obtain ⟨cc2, dc2, hr2⟩ := resolve_symbols_inv h2
  obtain ⟨cc3, dc3, hr3⟩ := resolve_symbols_inv h3
  obtain ⟨hS1, hst1⟩ := runBlocks_abs wop w1 w2 w3 _ _ _ _ _ _ _ _ _ _ hr1
  obtain ⟨hS2, hst2⟩ := runBlocks_abs wop w1 w2 w3 _ _ _ _ _ _ _ _ _ _ hr2
  obtain ⟨hS3, hst3⟩ := runBlocks_abs wop w1 w2 w3 _ _ _ _ _ _ _ _ _ _ hr3
  have hsatF : ∀ b ∈ bs1.map blockStruct, b.1 = BlockKind.functionKind →
      (tbl1.get_function_addr b.2.1).isSome = true := by
    intro b hb hk
    rw [hst1] at hb
    exact runBlocksS_satF wop w1 w2 w3 _ _ _ _ _ _ _ _ hS1 b hb hk
  have hsatA : ∀ b ∈ bs1.map blockStruct, b.1 ≠ BlockKind.macroKind →
      ∀ l ∈ b.2.2.1, l.1 = IRKind.aliasLine →
        (tbl1.get_alias_addr l.2.1).isSome = true := by
    intro b hb hk l hl hal
    rw [hst1] at hb
    exact runBlocksS_satA wop w1 w2 w3 _ _ _ _ _ _ _ _ hS1 b hb hk l hl hal
  have htbl : tbl2 = tbl1 :=
    runBlocksS_stable wop w1 w2 w3 _ _ _ _ _ _ _ _ hsatF hsatA hS2
  rw [htbl, hst2] at hS3
  rw [hS2] at hS3
  simp only [Except.ok.injEq, Prod.mk.injEq] at hS3
  exact hS3.2.2.2.symm

def c2ir0 : IRLine := { kind := IRKind.instruction, content := ("setreg 0x4000 0 0").toList, lineno := 0 }

def c2b0 : Block := { kind := BlockKind.functionKind, name := ("main").toList, lineno := 0, content := [c2ir0] }

def c2ir1 : IRLine := { kind := IRKind.instruction, content := ("setreg 0x4000 0 0").toList, lineno := 0, expanded_bits := [("01000000000000000000000000000001").toList, ("10000000000000000000000000100000").toList], addresses := [0, 1], func := some (("main").toList), opcode := some (("setreg").toList), param1 := some 16384, param2 := some 0, param3 := some 0 }

def c2b1 : Block := { kind := BlockKind.functionKind, name := ("main").toList, lineno := 0, content := [c2ir1], start_addr := some 0, size := 2 }

def c2t1 : SymbolTable := { alias_map := [], reverse_alias_map := [], function_map := [(("main").toList, some 0)], macro_map := [] }

theorem c2_layout_fixed_point_witness :
    resolve_symbols [c2b0] SymbolTable.empty 0 80 5 14 5 6 = .ok ([c2b1], c2t1, true) ∧
    resolve_symbols [c2b1] c2t1 0 80 5 14 5 6 = .ok ([c2b1], c2t1, false) ∧
    snapshot [c2b1] = snapshot [c2b1] :=
  ⟨by decide, by decide,
    c2_layout_fixed_point 5 14 5 6 0 80 [c2b0] [c2b1] [c2b1] [c2b1]
      SymbolTable.empty c2t1 c2t1 c2t1 true false false
      (by decide) (by decide) rfl (by decide)⟩

theorem runMemLines_c8 (bname : Str) (startAddr : Nat) :
    ∀ ls symtbl cur sz upd ls' symtbl' cur' sz' upd',
      runMemLines bname startAddr ls symtbl cur sz upd =
        .ok (ls', symtbl', cur', sz', upd') →
      ∀ ir' ∈ ls', ir'.kind = .memoryData →
        ir'.expanded_bits.length = ir'.addresses.length ∧ consecutive ir'.addresses := by
  intro ls
  induction ls with
  | nil =>
    intro symtbl cur sz upd ls' symtbl' cur' sz' upd' h ir' hmem _
    simp only [runMemLines, Except.ok.injEq, Prod.mk.injEq] at h
    rw [← h.1] at hmem
    simp at hmem
  | cons ir rest ih =>
    intro symtbl cur sz upd ls' symtbl' cur' sz' upd' h ir' hmem hkind
    rw [runMemLines] at h
    cases hk : ir.kind with
    | memoryData =>
      rw [hk] at h
      dsimp only at h
      cases hp : processData bname symtbl cur ir with
      | error e => rw [hp] at h; exact absurd h (by simp)
      | ok p =>
        obtain ⟨ir0, n⟩ := p
        rw [hp] at h
        dsimp only at h
        cases hr : runMemLines bname startAddr rest symtbl (cur + n) (sz + n) upd with
        | error e => rw [hr] at h; exact absurd h (by simp)
        | ok q =>
          obtain ⟨rest', symtblq, curq, szq, updq⟩ := q
          rw [hr] at h
          dsimp only at h
          simp only [Except.ok.injEq, Prod.mk.injEq] at h
          obtain ⟨hls, -⟩ := h
          rw [← hls] at hmem
          rcases List.mem_cons.mp hmem with rfl | hmem'
          · obtain ⟨hlen, haddr, -, -, -⟩ := processData_shape hp
            refine ⟨?_, ?_⟩
            · rw [hlen, haddr, List.length_range']
            · rw [haddr]; exact consecutive_range' _ _
          · exact ih _ _ _ _ _ _ _ _ _ hr ir' hmem' hkind
    | aliasLine =>
      rw [hk] at h
      dsimp only at h
      cases hp : processAlias symtbl startAddr ir with
      | error e => rw [hp] at h; exact absurd h (by simp)
      | ok p =>
        obtain ⟨symtbl1, bound⟩ := p
        rw [hp] at h
        dsimp only at h
        cases hr : runMemLines bname startAddr rest symtbl1 cur sz (upd || bound) with
        | error e => rw [hr] at h; exact absurd h (by simp)
        | ok q =>
          obtain ⟨rest', symtblq, curq, szq, updq⟩ := q
          rw [hr] at h
          dsimp only at h
          simp only [Except.ok.injEq, Prod.mk.injEq] at h
          obtain ⟨hls, -⟩ := h
          rw [← hls] at hmem
          rcases List.mem_cons.mp hmem with rfl | hmem'
          · rw [hk] at hkind; exact absurd hkind (by simp)
          · exact ih _ _ _ _ _ _ _ _ _ hr ir' hmem' hkind
    | macroLine =>
      rw [hk] at h
      dsimp only at h
      cases hr : runMemLines bname startAddr rest symtbl cur sz upd with
      | error e => rw [hr] at h; exact absurd h (by simp)
      | ok q =>
        obtain ⟨rest', symtblq, curq, szq, updq⟩ := q
        rw [hr] at h
        dsimp only at h
        simp only [Except.ok.injEq, Prod.mk.injEq] at h
        obtain ⟨hls, -⟩ := h
        rw [← hls] at hmem
        rcases List.mem_cons.mp hmem with rfl | hmem'
        · rw [hk] at hkind; exact absurd hkind (by simp)
        · exact ih _ _ _ _ _ _ _ _ _ hr ir' hmem' hkind
    | instruction =>
      rw [hk] at h
      dsimp only at h
      cases hr : runMemLines bname startAddr rest symtbl cur sz upd with
      | error e => rw [hr] at h; exact absurd h (by simp)
      | ok q =>
        obtain ⟨rest', symtblq, curq, szq, updq⟩ := q
        rw [hr] at h
        dsimp only at h
        simp only [Except.ok.injEq, Prod.mk.injEq] at h
        obtain ⟨hls, -⟩ := h
        rw [← hls] at hmem
        rcases List.mem_cons.mp hmem with rfl | hmem'
        · rw [hk] at hkind; exact absurd hkind (by simp)
        · exact ih _ _ _ _ _ _ _ _ _ hr ir' hmem' hkind
    | funcDefine =>
      rw [hk] at h
      dsimp only at h
      cases hr : runMemLines bname startAddr rest symtbl cur sz upd with
      | error e => rw [hr] at h; exact absurd h (by simp)
      | ok q =>
        obtain ⟨rest', symtblq, curq, szq, updq⟩ := q
        rw [hr] at h
        dsimp only at h
        simp only [Except.ok.injEq, Prod.mk.injEq] at h
        obtain ⟨hls, -⟩ := h
        rw [← hls] at hmem
        rcases List.mem_cons.mp hmem with rfl | hmem'
        · rw [hk] at hkind; exact absurd hkind (by simp)
        · exact ih _ _ _ _ _ _ _ _ _ hr ir' hmem' hkind

theorem runBlocks_c8 (wop w1 w2 w3 : Nat) :
    ∀ bs symtbl codeCur dataCur upd bs' symtbl' codeCur' dataCur' upd',
      runBlocks wop w1 w2 w3 bs symtbl codeCur dataCur upd =
        .ok (bs', symtbl', codeCur', dataCur', upd') →
      ∀ b' ∈ bs', ∀ ir' ∈ b'.content,
        (b'.kind = BlockKind.functionKind ∧ ir'.kind = IRKind.instruction) ∨
        (b'.kind = BlockKind.memoryKind ∧ ir'.kind = IRKind.memoryData) →
        ir'.expanded_bits.length = ir'.addresses.length ∧ consecutive ir'.addresses := by
  intro bs
  induction bs with
  | nil =>
    intro symtbl codeCur dataCur upd bs' symtbl' codeCur' dataCur' upd' h b' hb
    simp only [runBlocks, Except.ok.injEq, Prod.mk.injEq] at h
    rw [← h.1] at hb
    simp at hb
  | cons b rest ih =>
    intro symtbl codeCur dataCur upd bs' symtbl' codeCur' dataCur' upd' h b' hb ir' hir hkind
    rw [runBlocks] at h
    cases hk : b.kind with
    | functionKind =>
      rw [hk] at h
      dsimp only at h
      cases hg : symtbl.get_function_addr b.name with
      | none =>
        rw [hg] at h
        cases hd : symtbl.define_function b.name (some codeCur) with
        | error e =>
          rw [hd] at h
          simp only [Except.map] at h
          exact absurd h (by simp)
        | ok t =>
          rw [hd] at h
          simp only [Except.map] at h
          cases hf : runFuncLines wop w1 w2 w3 b.name codeCur b.content t codeCur 0 upd with
          | error e => rw [hf] at h; exact absurd h (by simp)
          | ok q =>
            obtain ⟨ls', symtbl2, codeCur2, sz, upd1⟩ := q
            rw [hf] at h
            dsimp only at h
            cases hrest : runBlocks wop w1 w2 w3 rest symtbl2 codeCur2 dataCur
                (upd1 || decide (sz ≠ b.size)) with
            | error e => rw [hrest] at h; exact absurd h (by simp)
            | ok q2 =>
              obtain ⟨rest', symtbl3, codeCur3, dataCur3, upd3⟩ := q2
              rw [hrest] at h
              dsimp only at h
              simp only [Except.ok.injEq, Prod.mk.injEq] at h
              obtain ⟨hbs, -⟩ := h
              rw [← hbs] at hb
              rcases List.mem_cons.mp hb with rfl | hb'
              · rcases hkind with ⟨-, hio⟩ | ⟨hbm, -⟩
                · exact runFuncLines_c8 wop w1 w2 w3 b.name codeCur
                    _ _ _ _ _ _ _ _ _ _ hf ir' hir hio
                · exact absurd hbm (by simp)
              · exact ih _ _ _ _ _ _ _ _ _ hrest b' hb' ir' hir hkind
      | some a =>
        rw [hg] at h
        dsimp only at h
        cases hf : runFuncLines wop w1 w2 w3 b.name a b.content symtbl codeCur 0 upd with
        | error e => rw [hf] at h; exact absurd h (by simp)
        | ok q =>
          obtain ⟨ls', symtbl2, codeCur2, sz, upd1⟩ := q
          rw [hf] at h
          dsimp only at h
          cases hrest : runBlocks wop w1 w2 w3 rest symtbl2 codeCur2 dataCur
              (upd1 || decide (sz ≠ b.size)) with
          | error e => rw [hrest] at h; exact absurd h (by simp)
          | ok q2 =>
            obtain ⟨rest', symtbl3, codeCur3, dataCur3, upd3⟩ := q2
            rw [hrest] at h
            dsimp only at h
            simp only [Except.ok.injEq, Prod.mk.injEq] at h
            obtain ⟨hbs, -⟩ := h
            rw [← hbs] at hb
            rcases List.mem_cons.mp hb with rfl | hb'
            · rcases hkind with ⟨-, hio⟩ | ⟨hbm, -⟩
              · exact runFuncLines_c8 wop w1 w2 w3 b.name a
                  _ _ _ _ _ _ _ _ _ _ hf ir' hir hio
              · exact absurd hbm (by simp)
            · exact ih _ _ _ _ _ _ _ _ _ hrest b' hb' ir' hir hkind
    | memoryKind =>
      rw [hk] at h
      dsimp only at h
      cases hm : runMemLines b.name dataCur b.content symtbl dataCur 0 upd with
      | error e => rw [hm] at h; exact absurd h (by simp)
      | ok q =>
        obtain ⟨ls', symtbl2, dataCur2, sz, upd1⟩ := q
        rw [hm] at h
        dsimp only at h
        cases hrest : runBlocks wop w1 w2 w3 rest symtbl2 codeCur dataCur2
            (upd1 || decide (sz ≠ b.size)) with
        | error e => rw [hrest] at h; exact absurd h (by simp)
        | ok q2 =>
          obtain ⟨rest', symtbl3, codeCur3, dataCur3, upd3⟩ := q2
          rw [hrest] at h
          dsimp only at h
          simp only [Except.ok.injEq, Prod.mk.injEq] at h
          obtain ⟨hbs, -⟩ := h
          rw [← hbs] at hb
          rcases List.mem_cons.mp hb with rfl | hb'
          · rcases hkind with ⟨hbf, -⟩ | ⟨-, hio⟩
            · exact absurd hbf (by simp)
            · exact runMemLines_c8 b.name dataCur
                _ _ _ _ _ _ _ _ _ _ hm ir' hir hio
          · exact ih _ _ _ _ _ _ _ _ _ hrest b' hb' ir' hir hkind
    | macroKind =>
      rw [hk] at h
      dsimp only at h
      cases hrest : runBlocks wop w1 w2 w3 rest symtbl codeCur dataCur upd with
      | error e => rw [hrest] at h; exact absurd h (by simp)
      | ok q2 =>
        obtain ⟨rest', symtbl3, codeCur3, dataCur3, upd3⟩ := q2
        rw [hrest] at h
        dsimp only at h
        simp only [Except.ok.injEq, Prod.mk.injEq] at h
        obtain ⟨hbs, -⟩ := h
        rw [← hbs] at hb
        rcases List.mem_cons.mp hb with rfl | hb'
        · rcases hkind with ⟨hbf, -⟩ | ⟨hbm, -⟩
          · rw [hk] at hbf; exact absurd hbf (by simp)
          · rw [hk] at hbm; exact absurd hbm (by simp)
        · exact ih _ _ _ _ _ _ _ _ _ hrest b' hb' ir' hir hkind

/-- C8: after any layout pass (`resolve_symbols`), every instruction line of
a function block and every data line of a memory block in the output
satisfies `expanded_bits.length = addresses.length`, and its addresses are
consecutive integers, each exactly one greater than the previous. -/
theorem c8_line_invariants
    (bs : List Block) (tbl : SymbolTable) (cs ds wop w1 w2 w3 : Nat)
    (bs' : List Block) (tbl' : SymbolTable) (u : Bool)
    (h : resolve_symbols bs tbl cs ds wop w1 w2 w3 = .ok (bs', tbl', u))
    (b' : Block) (hb : b' ∈ bs') (ir' : IRLine) (hir : ir' ∈ b'.content)
    (hkind : (b'.kind = BlockKind.functionKind ∧ ir'.kind = IRKind.instruction) ∨
             (b'.kind = BlockKind.memoryKind ∧ ir'.kind = IRKind.memoryData)) :
    ir'.expanded_bits.length = ir'.addresses.length ∧ consecutive ir'.addresses := by
  obtain ⟨cc, dc, hr⟩ := resolve_symbols_inv h
  exact runBlocks_c8 wop w1 w2 w3 _ _ _ _ _ _ _ _ _ _ hr b' hb ir' hir hkind

theorem c8_line_invariants_witness :
    resolve_symbols [c2b0] SymbolTable.empty 0 80 5 14 5 6 = .ok ([c2b1], c2t1, true) ∧
    c2ir1 ∈ c2b1.content ∧ c2b1.kind = BlockKind.functionKind ∧
    c2ir1.kind = IRKind.instruction ∧
    c2ir1.expanded_bits.length = c2ir1.addresses.length ∧ consecutive c2ir1.addresses :=
  ⟨by decide, by decide, rfl, rfl,
    c8_line_invariants [c2b0] SymbolTable.empty 0 80 5 14 5 6 [c2b1] c2t1 true
      (by decide) c2b1 (by decide) c2ir1 (by decide) (Or.inl ⟨rfl, rfl⟩)⟩
